import Mathlib

/-!
# ffscale: farbfeld decoder, nearest-neighbour scaler and encoder

A shallow embedding of `src/ffscale.c` and the proofs of its specification.

Modelling conventions

* A byte is a natural number below 256, a `uint16_t` one below `2 ^ 16`, a
  `uint32_t` one below `2 ^ 32`, and `size_t` arithmetic is carried out
  modulo `2 ^ 64` (`SIZE_MOD`).
* The byte order of the host is a parameter (`Endian`): objects are loaded from
  and stored to memory in host order, and `ntohl`/`ntohs`/`htonl`/`htons`
  swap the bytes on a little-endian host only.
* An input stream (`FILE`) is the list of bytes that can still be read, a flag
  telling whether the device fails once these bytes are used up, and the
  error indicator tested by `ferror`.  An output stream is the list of bytes
  written to it so far; write faults are not modelled (the source ignores the
  results of `fputs` and `fwrite`).
* The allocator is a parameter: `heap n` tells whether `calloc` grants a
  request for `n` pixels.  `read_ff` tests the pointer it gets and returns
  `FF_S_AllocError` on a null pointer.  `scale_ff` does not test it (line 92):
  a null pointer refers to no object, so the first store through it leaves
  defined behaviour.  The row buffer of `write_ff` (`malloc`, never tested) is
  modelled in the runs in which it is granted.
* A function returns `none` when the C code leaves defined behaviour by
  reading or writing outside an allocated object.
-/

namespace FFScale

/-! ## Machine model -/

/-- Byte order of the host. -/
inductive Endian where
  | little
  | big
  deriving DecidableEq, Repr

/-- The number of values of `size_t`. -/
def SIZE_MOD : Nat := 2 ^ 64

/-- The number of values of `uint32_t`. -/
def U32_MOD : Nat := 2 ^ 32

/-- The number of values of `uint16_t`. -/
def U16_MOD : Nat := 2 ^ 16

/-- Byte swap of a 16-bit value. -/
def bswap16 (v : Nat) : Nat :=
  (v % 256) * 256 + v / 256 % 256

/-- Byte swap of a 32-bit value. -/
def bswap32 (v : Nat) : Nat :=
  (v % 256) * 16777216 + (v / 256 % 256) * 65536 + (v / 65536 % 256) * 256
    + v / 16777216 % 256

/-- The function `ntohs` of `arpa/inet.h`. -/
def ntohs (e : Endian) (v : Nat) : Nat :=
  match e with
  | Endian.little => bswap16 v
  | Endian.big => v % U16_MOD

/-- The function `htons` of `arpa/inet.h`. -/
def htons (e : Endian) (v : Nat) : Nat :=
  match e with
  | Endian.little => bswap16 v
  | Endian.big => v % U16_MOD

/-- The function `ntohl` of `arpa/inet.h`. -/
def ntohl (e : Endian) (v : Nat) : Nat :=
  match e with
  | Endian.little => bswap32 v
  | Endian.big => v % U32_MOD

/-- The function `htonl` of `arpa/inet.h`. -/
def htonl (e : Endian) (v : Nat) : Nat :=
  match e with
  | Endian.little => bswap32 v
  | Endian.big => v % U32_MOD

/-- Value of element `k` of a `uint16_t` array whose bytes in memory are `p`. -/
def load_u16 (e : Endian) (p : List Nat) (k : Nat) : Nat :=
  match e with
  | Endian.little => p.getD (2 * k) 0 + 256 * p.getD (2 * k + 1) 0
  | Endian.big => 256 * p.getD (2 * k) 0 + p.getD (2 * k + 1) 0

/-- Value of element `k` of a `uint32_t` array whose bytes in memory are `p`. -/
def load_u32 (e : Endian) (p : List Nat) (k : Nat) : Nat :=
  match e with
  | Endian.little =>
      p.getD (4 * k) 0 + 256 * p.getD (4 * k + 1) 0 + 65536 * p.getD (4 * k + 2) 0
        + 16777216 * p.getD (4 * k + 3) 0
  | Endian.big =>
      16777216 * p.getD (4 * k) 0 + 65536 * p.getD (4 * k + 1) 0
        + 256 * p.getD (4 * k + 2) 0 + p.getD (4 * k + 3) 0

/-- Bytes in memory of a `uint16_t` object holding `v`. -/
def store_u16 (e : Endian) (v : Nat) : List Nat :=
  match e with
  | Endian.little => [v % 256, v / 256 % 256]
  | Endian.big => [v / 256 % 256, v % 256]

/-- Bytes in memory of a `uint32_t` object holding `v`. -/
def store_u32 (e : Endian) (v : Nat) : List Nat :=
  match e with
  | Endian.little => [v % 256, v / 256 % 256, v / 65536 % 256, v / 16777216 % 256]
  | Endian.big => [v / 16777216 % 256, v / 65536 % 256, v / 256 % 256, v % 256]

/-- The loop `for (size_t i = i0; i < i0 + k; ++i) body`, where the body may
leave defined behaviour. -/
def forLoopFrom {σ : Type} (body : Nat → σ → Option σ) : Nat → Nat → σ → Option σ
  | 0, _, s => some s
  | k + 1, i, s =>
    match body i s with
    | none => none
    | some s1 => forLoopFrom body k (i + 1) s1

/-- The loop `for (size_t i = 0; i < n; ++i) body`. -/
def forLoop {σ : Type} (n : Nat) (body : Nat → σ → Option σ) (s : σ) : Option σ :=
  forLoopFrom body n 0 s

/-- The assignment `buf[i] = v`, defined only inside the object. -/
def storeAt {α : Type} (buf : List α) (i : Nat) (v : α) : Option (List α) :=
  if i < buf.length then some (buf.set i v) else none

/-! ## Data model (lines 11-30) -/

/-- The enumeration `FF_Status`. -/
inductive FF_Status where
  | FF_S_Success
  | FF_S_BadMagic
  | FF_S_ExpectedMoar
  | FF_S_IOError
  | FF_S_AllocError
  deriving DecidableEq, Repr

/-- The structure `FF_Pixel`: four `uint16_t` channels. -/
structure FF_Pixel where
  r : Nat
  g : Nat
  b : Nat
  a : Nat
  deriving DecidableEq, Repr

/-- The structure `FF`; `pixels` is the object the pointer refers to (empty
for a null pointer). -/
structure FF where
  height : Nat
  width : Nat
  pixels : List FF_Pixel
  deriving DecidableEq, Repr

/-- An input stream. -/
structure FILE where
  bytes : List Nat
  failing : Bool
  err : Bool
  deriving DecidableEq, Repr

/-- The pixel with all channels zero, as `calloc` leaves it. -/
def zeroPixel : FF_Pixel := ⟨0, 0, 0, 0⟩

/-- The call `calloc(nmemb, sizeof(struct FF_Pixel))`. -/
def calloc (heap : Nat → Bool) (nmemb : Nat) : Option (List FF_Pixel) :=
  if heap nmemb then some (List.replicate nmemb zeroPixel) else none

/-- The call `fread(p, s, n, fp)`: the bytes stored to `p`, the number of
complete items read, and the stream afterwards. -/
def fread (s n : Nat) (fp : FILE) : List Nat × Nat × FILE :=
  if s * n ≤ fp.bytes.length then
    (fp.bytes.take (s * n), n, { fp with bytes := fp.bytes.drop (s * n) })
  else
    (fp.bytes, fp.bytes.length / s, { fp with bytes := [], err := fp.err || fp.failing })

/-- The call `ferror(fp)`. -/
def ferror (fp : FILE) : Bool := fp.err

/-- The function `efread` (lines 32-44). -/
def efread (s n : Nat) (fp : FILE) : FF_Status × List Nat × FILE :=
  let r := fread s n fp
  if r.2.1 ≠ n then
    if ferror r.2.2 then (FF_Status.FF_S_IOError, r.1, r.2.2)
    else (FF_Status.FF_S_ExpectedMoar, r.1, r.2.2)
  else (FF_Status.FF_S_Success, r.1, r.2.2)

/-- The string literal `"farbfeld"` with its terminating zero. -/
def farbfeld : List Nat := [102, 97, 114, 98, 102, 101, 108, 100, 0]

/-- The function `strncmp` of `string.h`; the end of a list stands for the
terminating zero. -/
def strncmp : List Nat → List Nat → Nat → Int
  | _, _, 0 => 0
  | s1, s2, n + 1 =>
    if s1.headD 0 ≠ s2.headD 0 then (s1.headD 0 : Int) - (s2.headD 0 : Int)
    else if s1.headD 0 = 0 then 0
    else strncmp s1.tail s2.tail n

/-! ## Decoder (lines 46-82) -/

/-- The pixel loop of `read_ff` (lines 69-79): `k` iterations are left and
the counter is `i`. -/
def read_ff_loop (e : Endian) : Nat → Nat → FF → FILE → FF_Status × FF × FILE
  | 0, _, out, fp => (FF_Status.FF_S_Success, out, fp)
  | k + 1, i, out, fp =>
    let r := efread 2 4 fp
    if r.1 ≠ FF_Status.FF_S_Success then (r.1, out, r.2.2)
    else
      let px : FF_Pixel :=
        { r := ntohs e (load_u16 e r.2.1 0)
          g := ntohs e (load_u16 e r.2.1 1)
          b := ntohs e (load_u16 e r.2.1 2)
          a := ntohs e (load_u16 e r.2.1 3) }
      read_ff_loop e k (i + 1) { out with pixels := out.pixels.set i px } r.2.2

/-- The function `read_ff`: the status, the structure `out` and the stream
after the call. -/
def read_ff (e : Endian) (heap : Nat → Bool) (out : FF) (fp : FILE) :
    FF_Status × FF × FILE :=
  let m := efread 1 8 fp
  if m.1 ≠ FF_Status.FF_S_Success then (m.1, out, m.2.2)
  else if strncmp m.2.1 farbfeld 8 ≠ 0 then (FF_Status.FF_S_BadMagic, out, m.2.2)
  else
    let d := efread 4 2 m.2.2
    if d.1 ≠ FF_Status.FF_S_Success then (d.1, out, d.2.2)
    else
      let width := ntohl e (load_u32 e d.2.1 0)
      let height := ntohl e (load_u32 e d.2.1 1)
      let sz := width * height % SIZE_MOD
      match calloc heap sz with
      | none =>
        (FF_Status.FF_S_AllocError, { height := height, width := width, pixels := [] }, d.2.2)
      | some px =>
        read_ff_loop e sz 0 { height := height, width := width, pixels := px } d.2.2

/-! ## Scaler (lines 84-107) -/

/-- The buffer `out->pixels` while `scale_ff` fills it, with the indices
stored to so far (oldest first). -/
structure ScaleState where
  pixels : List FF_Pixel
  writes : List Nat
  deriving DecidableEq, Repr

/-- Lines 100-102: one store to `out->pixels`. -/
def scale_ff_store (outw scale y x : Nat) (px : FF_Pixel) (dy dx : Nat) (st : ScaleState) :
    Option ScaleState :=
  let coordy := (y * scale + dy) % SIZE_MOD
  let coordx := (x * scale + dx) % SIZE_MOD
  let idx := (coordy * outw + coordx) % SIZE_MOD
  if idx < st.pixels.length then
    some { pixels := st.pixels.set idx px, writes := st.writes ++ [idx] }
  else none

/-- Lines 98-104: the two loops over `dy` and `dx`. -/
def scale_ff_block (outw scale y x : Nat) (px : FF_Pixel) (st : ScaleState) :
    Option ScaleState :=
  forLoop scale (fun dy s1 => forLoop scale (fun dx s2 => scale_ff_store outw scale y x px dy dx s2) s1) st

/-- Lines 95-105: the body of the loop over `x`. -/
def scale_ff_cell (ff : FF) (outw scale y x : Nat) (st : ScaleState) : Option ScaleState :=
  match ff.pixels[(y * ff.width + x) % SIZE_MOD]? with
  | none => none
  | some px => scale_ff_block outw scale y x px st

/-- Lines 94-106: the loops over `y` and `x`. -/
def scale_ff_loops (ff : FF) (outw scale : Nat) (st : ScaleState) : Option ScaleState :=
  forLoop ff.height (fun y s1 => forLoop ff.width (fun x s2 => scale_ff_cell ff outw scale y x s2) s1) st

/-- The function `scale_ff`, with the list of the indices it stored to.  The
pointer returned by `calloc` is stored in `out->pixels` without a test (lines
91-92): when the request is refused the pointer is null and refers to no
object, so `out->pixels` has no element and any store through it is outside. -/
def scale_ff_run (heap : Nat → Bool) (ff : FF) (scale : Nat) : Option (FF × List Nat) :=
  let width := ff.width * scale % SIZE_MOD
  let height := ff.height * scale % SIZE_MOD
  let sz := width * height % SIZE_MOD
  match scale_ff_loops ff width scale { pixels := (calloc heap sz).getD [], writes := [] } with
  | none => none
  | some st => some ({ height := height, width := width, pixels := st.pixels }, st.writes)

/-- The function `scale_ff`: the structure `out` after the call. -/
def scale_ff (heap : Nat → Bool) (ff : FF) (scale : Nat) : Option FF :=
  (scale_ff_run heap ff scale).map Prod.fst

/-! ## Encoder (lines 109-138) -/

/-- Lines 125-130: one pixel is put into the row buffer. -/
def write_ff_cell (e : Endian) (ff : FF) (y x : Nat) (rowbuf : List Nat) : Option (List Nat) :=
  match ff.pixels[(y * ff.width + x) % SIZE_MOD]? with
  | none => none
  | some px =>
    (storeAt rowbuf ((4 * x + 0) % SIZE_MOD) (htons e px.r)).bind fun b0 =>
    (storeAt b0 ((4 * x + 1) % SIZE_MOD) (htons e px.g)).bind fun b1 =>
    (storeAt b1 ((4 * x + 2) % SIZE_MOD) (htons e px.b)).bind fun b2 =>
    storeAt b2 ((4 * x + 3) % SIZE_MOD) (htons e px.a)

/-- The call `fwrite(buf, sizeof(uint16_t), n, fp)` on a `uint16_t` array. -/
def fwrite_u16 (e : Endian) (buf : List Nat) (n : Nat) (fp : List Nat) : Option (List Nat) :=
  if n ≤ buf.length then some (fp ++ (buf.take n).flatMap (store_u16 e)) else none

/-- Lines 123-135: the body of the loop over `y`; the state is the row buffer
and the output stream. -/
def write_ff_row (e : Endian) (ff : FF) (y : Nat) (st : List Nat × List Nat) :
    Option (List Nat × List Nat) :=
  match forLoop ff.width (fun x rb => write_ff_cell e ff y x rb) st.1 with
  | none => none
  | some rb =>
    match fwrite_u16 e rb (ff.width * 4 % SIZE_MOD) st.2 with
    | none => none
    | some fp => some (List.replicate rb.length 0, fp)

/-- The call `fputs(s, fp)`: the characters of `s` before its terminating zero
are written. -/
def fputs (s : List Nat) (fp : List Nat) : List Nat :=
  fp ++ s.takeWhile (fun c => c ≠ 0)

/-- The function `write_ff`: the output stream after the call.  The argument of
`htonl` is converted to `uint32_t`; the row buffer holds `uint16_t` values, its
content after `malloc` is indeterminate and taken to be zero (every element is
stored to before it is written out). -/
def write_ff (e : Endian) (ff : FF) (fp : List Nat) : Option (List Nat) :=
  let fp1 := fputs farbfeld fp
  let fp2 := fp1 ++ store_u32 e (htonl e (ff.width % U32_MOD))
  let fp3 := fp2 ++ store_u32 e (htonl e (ff.height % U32_MOD))
  let rowbuf : List Nat := List.replicate (ff.width * (4 * 2) % SIZE_MOD / 2) 0
  (forLoop ff.height (fun y st => write_ff_row e ff y st) (rowbuf, fp3)).map Prod.snd

/-! ## Driver (lines 140-183) -/

/-- The function `main`: the exit status and the bytes written to standard
output.  `scale` is the value of `(size_t)strtod(argv[1], NULL)` and `pre` the
indeterminate initial content of the local `pre`. -/
def main (e : Endian) (heap : Nat → Bool) (argc : Nat) (stdin_tty stdout_tty : Bool)
    (scale : Nat) (pre : FF) (stdin : FILE) : Option (Nat × List Nat) :=
  if argc ≠ 2 then some (1, [])
  else if stdin_tty then some (1, [])
  else if stdout_tty then some (1, [])
  else
    let r := read_ff e heap pre stdin
    if r.1 ≠ FF_Status.FF_S_Success then some (1, [])
    else
      match scale_ff heap r.2.1 scale with
      | none => none
      | some new => (write_ff e new []).map fun out => (0, out)

/-! ## Specification vocabulary

The definitions below follow the words of the specification (the wire format of
its section 6 and the data model of its section 3), not the code; the theorems
compare the functions above with them. -/

/-- Every element is a byte. -/
def IsBytes (l : List Nat) : Prop := ∀ b ∈ l, b < 256

instance (l : List Nat) : Decidable (IsBytes l) := by
  unfold IsBytes
  infer_instance

/-- The eight ASCII bytes of the magic value. -/
def magic : List Nat := [102, 97, 114, 98, 102, 101, 108, 100]

/-- Big-endian encoding of a 16-bit value. -/
def be16 (v : Nat) : List Nat := [v / 256 % 256, v % 256]

/-- Big-endian encoding of a 32-bit value. -/
def be32 (v : Nat) : List Nat := [v / 16777216 % 256, v / 65536 % 256, v / 256 % 256, v % 256]

/-- The big-endian 16-bit value at byte offset `o`. -/
def be16At (b : List Nat) (o : Nat) : Nat := 256 * b.getD o 0 + b.getD (o + 1) 0

/-- The big-endian 32-bit value at byte offset `o`. -/
def be32At (b : List Nat) (o : Nat) : Nat :=
  16777216 * b.getD o 0 + 65536 * b.getD (o + 1) 0 + 256 * b.getD (o + 2) 0 + b.getD (o + 3) 0

/-- The pixel whose four big-endian channels start at byte offset `o`. -/
def pixelAt (b : List Nat) (o : Nat) : FF_Pixel :=
  { r := be16At b o, g := be16At b (o + 2), b := be16At b (o + 4), a := be16At b (o + 6) }

/-- Wire encoding of one pixel. -/
def encodePixel (p : FF_Pixel) : List Nat := be16 p.r ++ be16 p.g ++ be16 p.b ++ be16 p.a

/-- Wire encoding of an image, pixel by pixel. -/
def encodeImage (ff : FF) : List Nat :=
  magic ++ be32 ff.width ++ be32 ff.height ++ ff.pixels.flatMap encodePixel

/-- The four channels are values of `uint16_t`. -/
def FF_Pixel.WF (p : FF_Pixel) : Prop :=
  p.r < U16_MOD ∧ p.g < U16_MOD ∧ p.b < U16_MOD ∧ p.a < U16_MOD

instance (p : FF_Pixel) : Decidable p.WF := by
  unfold FF_Pixel.WF
  infer_instance

/-! ### Example data -/

/-- The 2x1 image of the concrete scenario of the specification. -/
def img21 : FF :=
  { height := 1, width := 2, pixels := [⟨0, 0, 0, 65535⟩, ⟨65535, 65535, 65535, 65535⟩] }

/-- The wire encoding of `img21`. -/
def stream21 : List Nat :=
  [102, 97, 114, 98, 102, 101, 108, 100, 0, 0, 0, 2, 0, 0, 0, 1,
   0, 0, 0, 0, 0, 0, 255, 255, 255, 255, 255, 255, 255, 255, 255, 255]

/-- An allocator that grants every request. -/
def heapAll : Nat → Bool := fun _ => true

/-- An allocator that grants no request. -/
def heapNone : Nat → Bool := fun _ => false

/-- The most generous allocator of a 64-bit machine: it grants every request whose size
in bytes (8 per pixel) is a value of `size_t`. -/
def heapFits : Nat → Bool := fun n => decide (8 * n < SIZE_MOD)

/-- The indeterminate content of `out` used in the examples. -/
def out0 : FF := { height := 7, width := 9, pixels := [] }

/-- The 16-byte stream of an image of width 0 and height 3. -/
def stream03 : List Nat := [102, 97, 114, 98, 102, 101, 108, 100, 0, 0, 0, 0, 0, 0, 0, 3]

/-! ### Notions used in the loop invariants -/

/-- Index of the source pixel shown at output index `k`. -/
def srcIndex (w s k : Nat) : Nat := k / (w * s) / s * w + k % (w * s) / s

/-- Output index of the copy `(dy, dx)` of source pixel `(x, y)`. -/
def blockIndex (w s y x dy dx : Nat) : Nat := (y * s + dy) * (w * s) + (x * s + dx)

/-- The buffer has `n` pixels and shows the source pixel at every index in `C`. -/
def Agree (ff : FF) (s n : Nat) (C : Nat → Prop) (p : List FF_Pixel) : Prop :=
  p.length = n ∧ ∀ k, C k → p[k]? = ff.pixels[srcIndex ff.width s k]?

/-- The four values `write_ff` puts into the row buffer for one pixel. -/
def rowVals (e : Endian) (px : FF_Pixel) : List Nat :=
  [htons e px.r, htons e px.g, htons e px.b, htons e px.a]

/-! ### Notions and example data for overflow, the write log and trailing bytes -/

/-- The buffer has `sz` pixels, `n` stores were made so far, all of them inside the
buffer, and every index in `C` was stored to. -/
def Logged (sz n : Nat) (C : Nat → Prop) (st : ScaleState) : Prop :=
  st.pixels.length = sz ∧ st.writes.length = n ∧ (∀ k ∈ st.writes, k < sz) ∧
    ∀ k, C k → k ∈ st.writes

/-- The number of pixels `scale_ff` asks `calloc` for (line 90). -/
def scale_ff_alloc (ff : FF) (scale : Nat) : Nat :=
  (ff.width * scale % SIZE_MOD) * (ff.height * scale % SIZE_MOD) % SIZE_MOD

/-- An image of width `2 ^ 31` and height 0. -/
def imgWide : FF := { height := 0, width := 2147483648, pixels := [] }

/-- An image of one pixel. -/
def img11 : FF := { height := 1, width := 1, pixels := [⟨1, 2, 3, 4⟩] }

/-- The header of an image of 65535 x 65535 pixels, with no pixel data. -/
def streamBig : List Nat :=
  [102, 97, 114, 98, 102, 101, 108, 100, 0, 0, 255, 255, 0, 0, 255, 255]

/-- The stream `stream21` followed by three more bytes. -/
def stream21x : List Nat := stream21 ++ [1, 2, 3]

/-- The 16-byte stream of an image of width `2 ^ 31` and height 0. -/
def streamWide : List Nat := [102, 97, 114, 98, 102, 101, 108, 100, 128, 0, 0, 0, 0, 0, 0, 0]

/-! ## Byte order and stream reads -/

theorem IsBytes.getD_lt {b : List Nat} (hb : IsBytes b) (j : Nat) : b.getD j 0 < 256 := by
  rw [List.getD_eq_getElem?_getD]
  cases h : b[j]? with
  | none => simp
  | some v =>
    obtain ⟨hlt, hv⟩ := List.getElem?_eq_some.mp h
    have hm : v ∈ b := hv ▸ List.getElem_mem hlt
    simpa using hb v hm

theorem getD_take_drop (b : List Nat) (o n j : Nat) (hj : j < n) :
    ((b.drop o).take n).getD j 0 = b.getD (o + j) 0 := by
  simp [List.getD_eq_getElem?_getD, List.getElem?_take, hj, List.getElem?_drop]

theorem ntohs_load_u16 (e : Endian) (p : List Nat) (k : Nat)
    (h0 : p.getD (2 * k) 0 < 256) (h1 : p.getD (2 * k + 1) 0 < 256) :
    ntohs e (load_u16 e p k) = 256 * p.getD (2 * k) 0 + p.getD (2 * k + 1) 0 := by
  cases e <;> simp only [ntohs, load_u16, bswap16, U16_MOD] <;> omega

theorem ntohl_load_u32 (e : Endian) (p : List Nat) (k : Nat)
    (h0 : p.getD (4 * k) 0 < 256) (h1 : p.getD (4 * k + 1) 0 < 256)
    (h2 : p.getD (4 * k + 2) 0 < 256) (h3 : p.getD (4 * k + 3) 0 < 256) :
    ntohl e (load_u32 e p k) = 16777216 * p.getD (4 * k) 0 + 65536 * p.getD (4 * k + 1) 0
      + 256 * p.getD (4 * k + 2) 0 + p.getD (4 * k + 3) 0 := by
  cases e <;> simp only [ntohl, load_u32, bswap32, U32_MOD] <;> omega

theorem bytes2_split (a0 a1 : Nat) (h0 : a0 < 256) (h1 : a1 < 256) :
    (a0 * 256 + a1) % 256 = a1 ∧ (a0 * 256 + a1) / 256 % 256 = a0 := by
  omega

theorem bytes4_split (a0 a1 a2 a3 : Nat) (h0 : a0 < 256) (h1 : a1 < 256) (h2 : a2 < 256)
    (h3 : a3 < 256) :
    (a0 * 16777216 + a1 * 65536 + a2 * 256 + a3) % 256 = a3 ∧
    (a0 * 16777216 + a1 * 65536 + a2 * 256 + a3) / 256 % 256 = a2 ∧
    (a0 * 16777216 + a1 * 65536 + a2 * 256 + a3) / 65536 % 256 = a1 ∧
    (a0 * 16777216 + a1 * 65536 + a2 * 256 + a3) / 16777216 % 256 = a0 := by
  omega

theorem store_u16_htons (e : Endian) (v : Nat) : store_u16 e (htons e v) = be16 v := by
  cases e
  · have h := bytes2_split (v % 256) (v / 256 % 256) (Nat.mod_lt _ (by decide))
      (Nat.mod_lt _ (by decide))
    simp only [store_u16, htons, bswap16, be16, h.1, h.2]
  · simp only [store_u16, htons, be16, U16_MOD, List.cons.injEq, and_true]
    omega

theorem store_u32_htonl (e : Endian) (v : Nat) : store_u32 e (htonl e (v % U32_MOD)) = be32 v := by
  have hm : v % U32_MOD % 256 = v % 256 ∧ v % U32_MOD / 256 % 256 = v / 256 % 256 ∧
      v % U32_MOD / 65536 % 256 = v / 65536 % 256 ∧
      v % U32_MOD / 16777216 % 256 = v / 16777216 % 256 := by
    simp only [U32_MOD]; omega
  cases e
  · have h := bytes4_split (v % 256) (v / 256 % 256) (v / 65536 % 256) (v / 16777216 % 256)
      (Nat.mod_lt _ (by decide)) (Nat.mod_lt _ (by decide)) (Nat.mod_lt _ (by decide))
      (Nat.mod_lt _ (by decide))
    simp only [store_u32, htonl, bswap32, be32, hm.1, hm.2.1, hm.2.2.1, hm.2.2.2, h.1, h.2.1,
      h.2.2.1, h.2.2.2]
  · have hlt : v % U32_MOD < U32_MOD := Nat.mod_lt _ (by decide)
    simp only [store_u32, htonl, be32, Nat.mod_eq_of_lt hlt, hm.1, hm.2.1, hm.2.2.1, hm.2.2.2]

theorem efread_ok (s n : Nat) (fp : FILE) (h : s * n ≤ fp.bytes.length) :
    efread s n fp = (FF_Status.FF_S_Success, fp.bytes.take (s * n),
      { fp with bytes := fp.bytes.drop (s * n) }) := by
  simp [efread, fread, h]

theorem efread_short (s n : Nat) (fp : FILE) (h : fp.bytes.length < s * n) :
    (efread s n fp).1 =
      if fp.err || fp.failing then FF_Status.FF_S_IOError else FF_Status.FF_S_ExpectedMoar := by
  have hs : 0 < s := by
    rcases Nat.eq_zero_or_pos s with h0 | h0
    · subst h0; simp at h
    · exact h0
  have hne : fp.bytes.length / s ≠ n := by
    have : fp.bytes.length / s < n := Nat.div_lt_of_lt_mul h
    omega
  have hnot : ¬ s * n ≤ fp.bytes.length := by omega
  simp only [efread, fread, hnot, if_false, ferror, hne, ne_eq, not_false_eq_true, if_true]
  split <;> simp_all

/-! ## Encoding what was decoded -/

theorem take_drop_eq_map_getD (b : List Nat) (o n : Nat) (h : o + n ≤ b.length) :
    (b.drop o).take n = (List.range n).map (fun j => b.getD (o + j) 0) := by
  apply List.ext_getElem?
  intro k
  by_cases hk : k < n
  · have hin : o + k < b.length := by omega
    simp [List.getElem?_take, hk, List.getElem?_drop, List.getElem?_range hk,
      List.getD_eq_getElem?_getD, List.getElem?_eq_getElem hin]
  · rw [List.getElem?_eq_none (by simp; omega), List.getElem?_eq_none (by simp; omega)]

theorem be16_be16At (b : List Nat) (hb : IsBytes b) (o : Nat) :
    be16 (be16At b o) = [b.getD o 0, b.getD (o + 1) 0] := by
  have h0 := hb.getD_lt o
  have h1 := hb.getD_lt (o + 1)
  simp only [be16, be16At, List.cons.injEq, and_true]
  omega

theorem be32_be32At (b : List Nat) (hb : IsBytes b) (o : Nat) :
    be32 (be32At b o) = [b.getD o 0, b.getD (o + 1) 0, b.getD (o + 2) 0, b.getD (o + 3) 0] := by
  have h0 := hb.getD_lt o
  have h1 := hb.getD_lt (o + 1)
  have h2 := hb.getD_lt (o + 2)
  have h3 := hb.getD_lt (o + 3)
  simp only [be32, be32At, List.cons.injEq, and_true]
  omega

theorem encodePixel_pixelAt (b : List Nat) (hb : IsBytes b) (o : Nat) (h : o + 8 ≤ b.length) :
    encodePixel (pixelAt b o) = (b.drop o).take 8 := by
  rw [take_drop_eq_map_getD b o 8 h]
  simp only [encodePixel, pixelAt, be16_be16At b hb]
  simp [List.range_succ, Nat.add_assoc]

theorem encode_decode_pixels (b : List Nat) (hb : IsBytes b) :
    ∀ n, 16 + 8 * n ≤ b.length →
      ((List.range n).map (fun j => pixelAt b (16 + 8 * j))).flatMap encodePixel
        = (b.drop 16).take (8 * n) := by
  intro n
  induction n with
  | zero => intro _; simp
  | succ n ih =>
    intro h
    have e1 : 8 * (n + 1) = 8 * n + 8 := by omega
    rw [List.range_succ, List.map_append, List.flatMap_append, ih (by omega), e1, List.take_add,
      List.drop_drop]
    simp only [List.map_cons, List.map_nil, List.flatMap_cons, List.flatMap_nil, List.append_nil]
    rw [encodePixel_pixelAt b hb _ (by omega)]

theorem encode_header (b : List Nat) (hb : IsBytes b) (hmagic : b.take 8 = magic)
    (h : 16 ≤ b.length) : magic ++ be32 (be32At b 8) ++ be32 (be32At b 12) = b.take 16 := by
  have e1 : (16 : Nat) = 8 + 4 + 4 := rfl
  rw [e1, List.take_add, List.take_add, hmagic, take_drop_eq_map_getD b 8 4 (by omega),
    take_drop_eq_map_getD b (8 + 4) 4 (by omega), be32_be32At b hb, be32_be32At b hb]
  simp [List.range_succ]

/-- Encoding what the decoder returns gives the stream back. -/
theorem encode_decode (b : List Nat) (hb : IsBytes b) (hmagic : b.take 8 = magic)
    (hlen : b.length = 16 + 8 * (be32At b 8 * be32At b 12)) :
    encodeImage
        { height := be32At b 12, width := be32At b 8,
          pixels := (List.range (be32At b 8 * be32At b 12)).map (fun j => pixelAt b (16 + 8 * j)) }
      = b := by
  simp only [encodeImage]
  have ht : (b.drop 16).take (8 * (be32At b 8 * be32At b 12)) = b.drop 16 :=
    List.take_of_length_le (by simp only [List.length_drop]; omega)
  rw [encode_header b hb hmagic (by omega), encode_decode_pixels b hb _ (by omega), ht]
  exact List.take_append_drop 16 b

/-! ## Loops and the scaler -/

theorem forLoopFrom_inv {σ : Type} (body : Nat → σ → Option σ) (Inv : Nat → σ → Prop) (n : Nat) :
    ∀ (k i : Nat) (s : σ), i + k = n → Inv i s →
      (∀ j t, i ≤ j → j < n → Inv j t → ∃ t1, body j t = some t1 ∧ Inv (j + 1) t1) →
      ∃ t, forLoopFrom body k i s = some t ∧ Inv n t := by
  intro k
  induction k with
  | zero =>
    intro i s hik hinv _
    have hi : i = n := by omega
    subst hi
    exact ⟨s, rfl, hinv⟩
  | succ k ih =>
    intro i s hik hinv hstep
    obtain ⟨t1, hb, hinv1⟩ := hstep i s (Nat.le_refl i) (by omega) hinv
    obtain ⟨t, ht, hfin⟩ := ih (i + 1) t1 (by omega) hinv1
      (fun j t hj hjn hI => hstep j t (by omega) hjn hI)
    refine ⟨t, ?_, hfin⟩
    simp only [forLoopFrom, hb]
    exact ht

theorem forLoop_inv {σ : Type} (body : Nat → σ → Option σ) (Inv : Nat → σ → Prop) (n : Nat)
    (s : σ) (h0 : Inv 0 s)
    (hstep : ∀ j t, j < n → Inv j t → ∃ t1, body j t = some t1 ∧ Inv (j + 1) t1) :
    ∃ t, forLoop n body s = some t ∧ Inv n t :=
  forLoopFrom_inv body Inv n n 0 s (by omega) h0 (fun j t _ hj hI => hstep j t hj hI)

theorem srcIndex_block (w s y x dy dx : Nat) (hx : x < w) (hdy : dy < s) (hdx : dx < s) :
    srcIndex w s ((y * s + dy) * (w * s) + (x * s + dx)) = y * w + x := by
  have hs : 0 < s := by omega
  have hX : x * s + dx < w * s := by
    calc x * s + dx < x * s + s := by omega
      _ = (x + 1) * s := by ring
      _ ≤ w * s := Nat.mul_le_mul_right s hx
  have hW : 0 < w * s := by omega
  unfold srcIndex
  have h1 : ((y * s + dy) * (w * s) + (x * s + dx)) / (w * s) = y * s + dy := by
    rw [Nat.add_comm, Nat.add_mul_div_right _ _ hW, Nat.div_eq_of_lt hX, Nat.zero_add]
  have h2 : ((y * s + dy) * (w * s) + (x * s + dx)) % (w * s) = x * s + dx := by
    rw [Nat.add_comm, Nat.add_mul_mod_self_right, Nat.mod_eq_of_lt hX]
  have h3 : (y * s + dy) / s = y := by
    rw [Nat.add_comm, Nat.add_mul_div_right _ _ hs, Nat.div_eq_of_lt hdy, Nat.zero_add]
  have h4 : (x * s + dx) / s = x := by
    rw [Nat.add_comm, Nat.add_mul_div_right _ _ hs, Nat.div_eq_of_lt hdx, Nat.zero_add]
  rw [h1, h2, h3, h4]

theorem block_index_lt (w h s y x dy dx : Nat) (hy : y < h) (hx : x < w) (hdy : dy < s)
    (hdx : dx < s) : (y * s + dy) * (w * s) + (x * s + dx) < w * s * (h * s) := by
  have hX : x * s + dx < w * s := by
    calc x * s + dx < x * s + s := by omega
      _ = (x + 1) * s := by ring
      _ ≤ w * s := Nat.mul_le_mul_right s hx
  have hY : y * s + dy + 1 ≤ h * s := by
    calc y * s + dy + 1 ≤ y * s + s := by omega
      _ = (y + 1) * s := by ring
      _ ≤ h * s := Nat.mul_le_mul_right s hy
  calc (y * s + dy) * (w * s) + (x * s + dx) < (y * s + dy) * (w * s) + w * s := by omega
    _ = (y * s + dy + 1) * (w * s) := by ring
    _ ≤ h * s * (w * s) := Nat.mul_le_mul_right _ hY
    _ = w * s * (h * s) := by ring

theorem Agree.mono {ff : FF} {s n : Nat} {C D : Nat → Prop} {p : List FF_Pixel}
    (h : Agree ff s n C p) (hCD : ∀ k, D k → C k) : Agree ff s n D p :=
  ⟨h.1, fun k hk => h.2 k (hCD k hk)⟩

theorem scale_ff_store_agree (ff : FF) (s y x dy dx : Nat) (px : FF_Pixel) (C : Nat → Prop)
    (st : ScaleState)
    (hM : ff.width * s * (ff.height * s) < SIZE_MOD)
    (hy : y < ff.height) (hx : x < ff.width) (hdy : dy < s) (hdx : dx < s)
    (hpx : ff.pixels[y * ff.width + x]? = some px)
    (hA : Agree ff s (ff.width * s * (ff.height * s)) C st.pixels) :
    ∃ st1, scale_ff_store (ff.width * s) s y x px dy dx st = some st1 ∧
      Agree ff s (ff.width * s * (ff.height * s))
        (fun k => C k ∨ k = blockIndex ff.width s y x dy dx) st1.pixels := by
  have hlt := block_index_lt ff.width ff.height s y x dy dx hy hx hdy hdx
  have hW : 0 < ff.width * s := Nat.mul_pos (by omega) (by omega)
  have h1 : y * s + dy ≤ (y * s + dy) * (ff.width * s) := Nat.le_mul_of_pos_right _ hW
  have hy1 : (y * s + dy) % SIZE_MOD = y * s + dy := Nat.mod_eq_of_lt (by omega)
  have hx1 : (x * s + dx) % SIZE_MOD = x * s + dx := Nat.mod_eq_of_lt (by omega)
  have hi1 : ((y * s + dy) * (ff.width * s) + (x * s + dx)) % SIZE_MOD
      = (y * s + dy) * (ff.width * s) + (x * s + dx) := Nat.mod_eq_of_lt (by omega)
  have hlen := hA.1
  refine ⟨{ pixels := st.pixels.set (blockIndex ff.width s y x dy dx) px,
            writes := st.writes ++ [blockIndex ff.width s y x dy dx] }, ?_, ?_, ?_⟩
  · simp only [scale_ff_store, hy1, hx1, hi1, blockIndex]
    rw [if_pos (by omega)]
  · simp [hlen]
  · intro k hk
    by_cases hkeq : k = blockIndex ff.width s y x dy dx
    · subst hkeq
      have hsrc : srcIndex ff.width s (blockIndex ff.width s y x dy dx) = y * ff.width + x :=
        srcIndex_block ff.width s y x dy dx hx hdy hdx
      rw [hsrc, hpx, List.getElem?_set]
      simp only [blockIndex] at *
      simp [hlen, hlt]
    · rcases hk with hk | hk
      · have := hA.2 k hk
        simp only [List.getElem?_set_ne (Ne.symm hkeq)]
        exact this
      · exact absurd hk hkeq

theorem scale_ff_block_agree (ff : FF) (s y x : Nat) (px : FF_Pixel) (C : Nat → Prop)
    (st : ScaleState)
    (hM : ff.width * s * (ff.height * s) < SIZE_MOD)
    (hy : y < ff.height) (hx : x < ff.width)
    (hpx : ff.pixels[y * ff.width + x]? = some px)
    (hA : Agree ff s (ff.width * s * (ff.height * s)) C st.pixels) :
    ∃ st1, scale_ff_block (ff.width * s) s y x px st = some st1 ∧
      Agree ff s (ff.width * s * (ff.height * s))
        (fun k => C k ∨ ∃ dy, dy < s ∧ ∃ dx, dx < s ∧ k = blockIndex ff.width s y x dy dx)
        st1.pixels := by
  unfold scale_ff_block
  refine forLoop_inv
    (fun dy s1 => forLoop s (fun dx s2 => scale_ff_store (ff.width * s) s y x px dy dx s2) s1)
    (fun i t => Agree ff s (ff.width * s * (ff.height * s))
      (fun k => C k ∨ ∃ dy, dy < i ∧ ∃ dx, dx < s ∧ k = blockIndex ff.width s y x dy dx) t.pixels)
    s st ?_ ?_
  · exact hA.mono (fun k hk => by
      rcases hk with hk | ⟨dy, hdy, _⟩
      · exact hk
      · omega)
  · intro dy t hdy hI
    have := forLoop_inv (fun dx s2 => scale_ff_store (ff.width * s) s y x px dy dx s2)
      (fun j t => Agree ff s (ff.width * s * (ff.height * s))
        (fun k => (C k ∨ ∃ dy1, dy1 < dy ∧ ∃ dx, dx < s ∧ k = blockIndex ff.width s y x dy1 dx)
          ∨ ∃ dx, dx < j ∧ k = blockIndex ff.width s y x dy dx) t.pixels) s t
      (hI.mono (fun k hk => by
        rcases hk with hk | ⟨dx, hdx, _⟩
        · exact hk
        · omega))
      (fun dx t2 hdx hI2 => by
        obtain ⟨t3, h3, hA3⟩ := scale_ff_store_agree ff s y x dy dx px _ t2 hM hy hx hdy hdx hpx hI2
        refine ⟨t3, h3, hA3.mono ?_⟩
        intro k hk
        rcases hk with hk | ⟨dx1, hdx1, hk⟩
        · exact Or.inl (Or.inl hk)
        · by_cases hd : dx1 = dx
          · subst hd; exact Or.inr hk
          · exact Or.inl (Or.inr ⟨dx1, by omega, hk⟩))
    obtain ⟨t1, ht1, hA1⟩ := this
    refine ⟨t1, ht1, hA1.mono ?_⟩
    intro k hk
    rcases hk with hk | ⟨dy1, hdy1, dx, hdx, hk⟩
    · exact Or.inl (Or.inl hk)
    · by_cases hd : dy1 = dy
      · subst hd; exact Or.inr ⟨dx, hdx, hk⟩
      · exact Or.inl (Or.inr ⟨dy1, by omega, dx, hdx, hk⟩)

theorem src_index_lt (w h y x : Nat) (hy : y < h) (hx : x < w) : y * w + x < w * h := by
  calc y * w + x < y * w + w := by omega
    _ = (y + 1) * w := by ring
    _ ≤ h * w := Nat.mul_le_mul_right w hy
    _ = w * h := Nat.mul_comm h w

theorem scale_ff_cell_agree (ff : FF) (s y x : Nat) (C : Nat → Prop) (st : ScaleState)
    (hinv : ff.pixels.length = ff.width * ff.height)
    (hlen : ff.width * ff.height < SIZE_MOD)
    (hM : ff.width * s * (ff.height * s) < SIZE_MOD)
    (hy : y < ff.height) (hx : x < ff.width)
    (hA : Agree ff s (ff.width * s * (ff.height * s)) C st.pixels) :
    ∃ st1, scale_ff_cell ff (ff.width * s) s y x st = some st1 ∧
      Agree ff s (ff.width * s * (ff.height * s))
        (fun k => C k ∨ ∃ dy, dy < s ∧ ∃ dx, dx < s ∧ k = blockIndex ff.width s y x dy dx)
        st1.pixels := by
  have hlt := src_index_lt ff.width ff.height y x hy hx
  have hmod : (y * ff.width + x) % SIZE_MOD = y * ff.width + x := Nat.mod_eq_of_lt (by omega)
  have hin : y * ff.width + x < ff.pixels.length := by omega
  have hpx : ff.pixels[y * ff.width + x]? = some (ff.pixels[y * ff.width + x]) :=
    List.getElem?_eq_getElem hin
  simp only [scale_ff_cell, hmod, hpx]
  exact scale_ff_block_agree ff s y x _ C st hM hy hx hpx hA

theorem scale_ff_loops_agree (ff : FF) (s : Nat) (st : ScaleState)
    (hinv : ff.pixels.length = ff.width * ff.height)
    (hlen : ff.width * ff.height < SIZE_MOD)
    (hM : ff.width * s * (ff.height * s) < SIZE_MOD)
    (hst : st.pixels.length = ff.width * s * (ff.height * s)) :
    ∃ st1, scale_ff_loops ff (ff.width * s) s st = some st1 ∧
      Agree ff s (ff.width * s * (ff.height * s))
        (fun k => ∃ y, y < ff.height ∧ ∃ x, x < ff.width ∧ ∃ dy, dy < s ∧ ∃ dx, dx < s ∧
          k = blockIndex ff.width s y x dy dx) st1.pixels := by
  unfold scale_ff_loops
  refine forLoop_inv
    (fun y s1 => forLoop ff.width (fun x s2 => scale_ff_cell ff (ff.width * s) s y x s2) s1)
    (fun i t => Agree ff s (ff.width * s * (ff.height * s))
      (fun k => ∃ y, y < i ∧ ∃ x, x < ff.width ∧ ∃ dy, dy < s ∧ ∃ dx, dx < s ∧
          k = blockIndex ff.width s y x dy dx) t.pixels)
    ff.height st ?_ ?_
  · refine ⟨hst, ?_⟩
    rintro k ⟨y, hy, _⟩
    omega
  · intro y t hy hI
    have := forLoop_inv (fun x s2 => scale_ff_cell ff (ff.width * s) s y x s2)
      (fun j t => Agree ff s (ff.width * s * (ff.height * s))
        (fun k => (∃ y1, y1 < y ∧ ∃ x, x < ff.width ∧ ∃ dy, dy < s ∧ ∃ dx, dx < s ∧
            k = blockIndex ff.width s y1 x dy dx)
          ∨ ∃ x, x < j ∧ ∃ dy, dy < s ∧ ∃ dx, dx < s ∧ k = blockIndex ff.width s y x dy dx)
        t.pixels) ff.width t
      (hI.mono (fun k hk => by
        rcases hk with hk | ⟨x, hx, _⟩
        · exact hk
        · omega))
      (fun x t2 hx hI2 => by
        obtain ⟨t3, h3, hA3⟩ := scale_ff_cell_agree ff s y x _ t2 hinv hlen hM hy hx hI2
        refine ⟨t3, h3, hA3.mono ?_⟩
        intro k hk
        rcases hk with hk | ⟨x1, hx1, hk⟩
        · exact Or.inl (Or.inl hk)
        · by_cases hd : x1 = x
          · subst hd; exact Or.inr hk
          · exact Or.inl (Or.inr ⟨x1, by omega, hk⟩))
    obtain ⟨t1, ht1, hA1⟩ := this
    refine ⟨t1, ht1, hA1.mono ?_⟩
    intro k hk
    obtain ⟨y1, hy1, x, hx, hk⟩ := hk
    by_cases hd : y1 = y
    · subst hd; exact Or.inr ⟨x, hx, hk⟩
    · exact Or.inl ⟨y1, by omega, x, hx, hk⟩

/-- What `scale_ff` computes when no product wraps. -/
theorem scale_ff_run_spec (heap : Nat → Bool) (ff : FF) (s : Nat)
    (hinv : ff.pixels.length = ff.width * ff.height)
    (hlen : ff.width * ff.height < SIZE_MOD)
    (hw : ff.width * s < SIZE_MOD) (hh : ff.height * s < SIZE_MOD)
    (hM : ff.width * s * (ff.height * s) < SIZE_MOD)
    (halloc : heap (ff.width * s * (ff.height * s)) = true) :
    ∃ p log, scale_ff_run heap ff s = some ({ height := ff.height * s, width := ff.width * s, pixels := p }, log) ∧
      p.length = ff.width * s * (ff.height * s) ∧
      ∀ y x dy dx, y < ff.height → x < ff.width → dy < s → dx < s →
        p[blockIndex ff.width s y x dy dx]? = ff.pixels[y * ff.width + x]? := by
  obtain ⟨st1, h1, hA⟩ := scale_ff_loops_agree ff s
    { pixels := List.replicate (ff.width * s * (ff.height * s)) zeroPixel, writes := [] }
    hinv hlen hM (by simp)
  refine ⟨st1.pixels, st1.writes, ?_, hA.1, ?_⟩
  · simp only [scale_ff_run, Nat.mod_eq_of_lt hw, Nat.mod_eq_of_lt hh, Nat.mod_eq_of_lt hM,
      calloc, halloc, if_true, Option.getD_some, h1]
  · intro y x dy dx hy hx hdy hdx
    have hsrc : srcIndex ff.width s (blockIndex ff.width s y x dy dx) = y * ff.width + x :=
      srcIndex_block ff.width s y x dy dx hx hdy hdx
    rw [hA.2 _ ⟨y, hy, x, hx, dy, hdy, dx, hdx, rfl⟩, hsrc]

theorem scale_ff_spec (heap : Nat → Bool) (ff : FF) (s : Nat)
    (hinv : ff.pixels.length = ff.width * ff.height)
    (hlen : ff.width * ff.height < SIZE_MOD)
    (hw : ff.width * s < SIZE_MOD) (hh : ff.height * s < SIZE_MOD)
    (hM : ff.width * s * (ff.height * s) < SIZE_MOD)
    (halloc : heap (ff.width * s * (ff.height * s)) = true) :
    ∃ p, scale_ff heap ff s = some { height := ff.height * s, width := ff.width * s, pixels := p } ∧
      p.length = ff.width * s * (ff.height * s) ∧
      ∀ y x dy dx, y < ff.height → x < ff.width → dy < s → dx < s →
        p[blockIndex ff.width s y x dy dx]? = ff.pixels[y * ff.width + x]? := by
  obtain ⟨p, log, hrun, hp, hblk⟩ := scale_ff_run_spec heap ff s hinv hlen hw hh hM halloc
  exact ⟨p, by simp [scale_ff, hrun], hp, hblk⟩

theorem mul_le_scaled (w h s : Nat) (hs : 1 ≤ s) : w * h ≤ w * s * (h * s) :=
  Nat.mul_le_mul (Nat.le_mul_of_pos_right w hs) (Nat.le_mul_of_pos_right h hs)

theorem scale_ff_one_eq (heap : Nat → Bool) (img : FF)
    (hlen : img.pixels.length = img.width * img.height)
    (hw : img.width < SIZE_MOD) (hh : img.height < SIZE_MOD)
    (hsz : img.pixels.length < SIZE_MOD)
    (halloc : heap img.pixels.length = true) :
    scale_ff heap img 1 = some img := by
  obtain ⟨p, hrun, hp, hblk⟩ := scale_ff_spec heap img 1 hlen (by omega) (by omega) (by omega)
    (by simp only [Nat.mul_one]; omega) (by simp only [Nat.mul_one, ← hlen]; exact halloc)
  rw [hrun]
  have hpix : p = img.pixels := by
    apply List.ext_getElem?
    intro k
    by_cases hk : k < img.width * img.height
    · have hwpos : 0 < img.width := by
        rcases Nat.eq_zero_or_pos img.width with h0 | h0
        · rw [h0] at hk; omega
        · exact h0
      have hy : k / img.width < img.height :=
        Nat.div_lt_of_lt_mul hk
      have hx : k % img.width < img.width := Nat.mod_lt _ hwpos
      have := hblk (k / img.width) (k % img.width) 0 0 hy hx (by omega) (by omega)
      have e1 : blockIndex img.width 1 (k / img.width) (k % img.width) 0 0 = k := by
        simp only [blockIndex, Nat.mul_one, Nat.add_zero]
        rw [Nat.mul_comm]; exact Nat.div_add_mod k img.width
      have e2 : k / img.width * img.width + k % img.width = k := by
        rw [Nat.mul_comm]; exact Nat.div_add_mod k img.width
      rw [e1, e2] at this
      exact this
    · have h1 : p.length ≤ k := by simp only [Nat.mul_one] at hp; omega
      have h2 : img.pixels.length ≤ k := by omega
      rw [List.getElem?_eq_none h1, List.getElem?_eq_none h2]
  subst hpix
  simp

/-! ## The decoder on a complete stream -/

theorem set_append_length {α : Type} (l1 : List α) (x v : α) (l2 : List α) (i : Nat)
    (hi : l1.length = i) : (l1 ++ x :: l2).set i v = l1 ++ v :: l2 := by
  subst hi
  induction l1 with
  | nil => simp
  | cons a l ih => simp [ih]

theorem read_pixel_eq (e : Endian) (b : List Nat) (hb : IsBytes b) (o : Nat) :
    ({ r := ntohs e (load_u16 e ((b.drop o).take (2 * 4)) 0)
       g := ntohs e (load_u16 e ((b.drop o).take (2 * 4)) 1)
       b := ntohs e (load_u16 e ((b.drop o).take (2 * 4)) 2)
       a := ntohs e (load_u16 e ((b.drop o).take (2 * 4)) 3) } : FF_Pixel) = pixelAt b o := by
  have hlt : ∀ j, ((b.drop o).take (2 * 4)).getD j 0 < 256 := by
    intro j
    by_cases hj : j < 2 * 4
    · rw [getD_take_drop b o (2 * 4) j hj]; exact hb.getD_lt _
    · rw [List.getD_eq_default _ _ (by simp; omega)]; decide
  simp only [pixelAt, be16At, ntohs_load_u16 e _ _ (hlt _) (hlt _)]
  rw [getD_take_drop b o (2 * 4) (2 * 0) (by decide), getD_take_drop b o (2 * 4) (2 * 0 + 1) (by decide),
    getD_take_drop b o (2 * 4) (2 * 1) (by decide), getD_take_drop b o (2 * 4) (2 * 1 + 1) (by decide),
    getD_take_drop b o (2 * 4) (2 * 2) (by decide), getD_take_drop b o (2 * 4) (2 * 2 + 1) (by decide),
    getD_take_drop b o (2 * 4) (2 * 3) (by decide), getD_take_drop b o (2 * 4) (2 * 3 + 1) (by decide)]
  simp [Nat.add_assoc]

/-- The pixel loop of the decoder on a stream that holds all the pixels it asks for. -/
theorem read_ff_loop_ok (e : Endian) (b : List Nat) (hb : IsBytes b) (h w : Nat) :
    ∀ (k i : Nat) (fp : FILE), fp.bytes = b.drop (16 + 8 * i) → 16 + 8 * (i + k) ≤ b.length →
      read_ff_loop e k i
        { height := h, width := w,
          pixels := (List.range i).map (fun j => pixelAt b (16 + 8 * j)) ++ List.replicate k zeroPixel }
        fp
      = (FF_Status.FF_S_Success,
          { height := h, width := w,
            pixels := (List.range (i + k)).map (fun j => pixelAt b (16 + 8 * j)) },
          { fp with bytes := b.drop (16 + 8 * (i + k)) }) := by
  intro k
  induction k with
  | zero =>
    intro i fp hfp _
    simp [read_ff_loop, ← hfp]
  | succ k ih =>
    intro i fp hfp hlen
    have hav : 2 * 4 ≤ fp.bytes.length := by rw [hfp, List.length_drop]; omega
    have hrd := efread_ok 2 4 fp hav
    have hpx := read_pixel_eq e b hb (16 + 8 * i)
    rw [← hfp] at hpx
    have hset : ((List.range i).map (fun j => pixelAt b (16 + 8 * j))
          ++ List.replicate (k + 1) zeroPixel).set i (pixelAt b (16 + 8 * i))
        = (List.range (i + 1)).map (fun j => pixelAt b (16 + 8 * j))
          ++ List.replicate k zeroPixel := by
      have hl : ((List.range i).map (fun j => pixelAt b (16 + 8 * j))).length = i := by simp
      rw [List.replicate_succ, set_append_length _ _ _ _ i hl]
      simp [List.range_succ]
    have hnext : ({ fp with bytes := fp.bytes.drop (2 * 4) } : FILE).bytes
        = b.drop (16 + 8 * (i + 1)) := by
      simp only [hfp, List.drop_drop]
      congr 1
    have := ih (i + 1) { fp with bytes := fp.bytes.drop (2 * 4) } hnext (by omega)
    simp only [read_ff_loop, hrd, ne_eq, not_true_eq_false, if_false, hpx, hset]
    rw [this]
    have e1 : i + 1 + k = i + (k + 1) := by omega
    simp [e1]

theorem be32At_lt (b : List Nat) (hb : IsBytes b) (o : Nat) : be32At b o < U32_MOD := by
  have h0 := hb.getD_lt o
  have h1 := hb.getD_lt (o + 1)
  have h2 := hb.getD_lt (o + 2)
  have h3 := hb.getD_lt (o + 3)
  simp only [be32At, U32_MOD]
  omega

theorem u32_mul_lt (w h : Nat) (hw : w < U32_MOD) (hh : h < U32_MOD) : w * h < SIZE_MOD := by
  have h1 : w * h ≤ (U32_MOD - 1) * (U32_MOD - 1) :=
    Nat.mul_le_mul (Nat.le_sub_one_of_lt hw) (Nat.le_sub_one_of_lt hh)
  have h2 : (U32_MOD - 1) * (U32_MOD - 1) < SIZE_MOD := by decide
  omega

theorem read_dim_eq (e : Endian) (b : List Nat) (hb : IsBytes b) (k : Nat) (hk : k < 2) :
    ntohl e (load_u32 e ((b.drop 8).take (4 * 2)) k) = be32At b (8 + 4 * k) := by
  have hlt : ∀ j, ((b.drop 8).take (4 * 2)).getD j 0 < 256 := by
    intro j
    by_cases hj : j < 4 * 2
    · rw [getD_take_drop b 8 (4 * 2) j hj]; exact hb.getD_lt _
    · rw [List.getD_eq_default _ _ (by simp; omega)]; decide
  rw [ntohl_load_u32 e _ _ (hlt _) (hlt _) (hlt _) (hlt _)]
  rw [getD_take_drop b 8 (4 * 2) (4 * k) (by omega), getD_take_drop b 8 (4 * 2) (4 * k + 1) (by omega),
    getD_take_drop b 8 (4 * 2) (4 * k + 2) (by omega), getD_take_drop b 8 (4 * 2) (4 * k + 3) (by omega)]
  simp [be32At, Nat.add_assoc]

/-- The decoder on a stream that starts with a complete image. -/
theorem read_ff_ok (e : Endian) (heap : Nat → Bool) (out : FF) (b : List Nat) (fl er : Bool)
    (hb : IsBytes b) (hmagic : b.take 8 = magic)
    (hlen : 16 + 8 * (be32At b 8 * be32At b 12) ≤ b.length)
    (halloc : heap (be32At b 8 * be32At b 12) = true) :
    read_ff e heap out { bytes := b, failing := fl, err := er }
      = (FF_Status.FF_S_Success,
          { height := be32At b 12, width := be32At b 8,
            pixels := (List.range (be32At b 8 * be32At b 12)).map (fun j => pixelAt b (16 + 8 * j)) },
          { bytes := b.drop (16 + 8 * (be32At b 8 * be32At b 12)), failing := fl, err := er }) := by
  have hm := efread_ok 1 8 { bytes := b, failing := fl, err := er } (by simp; omega)
  have hd := efread_ok 4 2 { bytes := b.drop (1 * 8), failing := fl, err := er }
    (by simp; omega)
  have hcmp : strncmp (b.take (1 * 8)) farbfeld 8 = 0 := by
    rw [show (1 * 8 : Nat) = 8 from rfl, hmagic]; decide
  have hw := read_dim_eq e b hb 0 (by decide)
  have hh := read_dim_eq e b hb 1 (by decide)
  have hsz : be32At b 8 * be32At b 12 % SIZE_MOD = be32At b 8 * be32At b 12 :=
    Nat.mod_eq_of_lt (u32_mul_lt _ _ (be32At_lt b hb 8) (be32At_lt b hb 12))
  have hloop := read_ff_loop_ok e b hb (be32At b 12) (be32At b 8) (be32At b 8 * be32At b 12) 0
    { bytes := (b.drop (1 * 8)).drop (4 * 2), failing := fl, err := er }
    (by simp) (by omega)
  simp only [List.range_zero, List.map_nil, List.nil_append, Nat.zero_add] at hloop
  simp only [read_ff, hm, hd, hcmp, ne_eq, not_true_eq_false, if_false]
  simp only [show (1 * 8 : Nat) = 8 from rfl] at hw hh ⊢
  simp only [hw, hh, Nat.mul_zero, Nat.add_zero, Nat.mul_one, hsz, calloc, halloc, if_true]
  exact hloop

/-! ## The encoder -/

theorem rowVals_store (e : Endian) (px : FF_Pixel) :
    (rowVals e px).flatMap (store_u16 e) = encodePixel px := by
  simp [rowVals, encodePixel, store_u16_htons]

theorem storeAt_append {α : Type} (l1 l2 : List α) (i j : Nat) (v : α)
    (hi : i = l1.length + j) (hj : j < l2.length) :
    storeAt (l1 ++ l2) i v = some (l1 ++ l2.set j v) := by
  subst hi
  have : l1.length + j < (l1 ++ l2).length := by simp; omega
  simp only [storeAt, this, if_true]
  rw [List.set_append_right _ _ (by omega)]
  simp

theorem write_ff_cell_ok (e : Endian) (ff : FF) (y x : Nat) (px : FF_Pixel) (vals rest : List Nat)
    (hpx : ff.pixels[y * ff.width + x]? = some px)
    (hidx : y * ff.width + x < SIZE_MOD)
    (hvals : vals.length = 4 * x) (hx : 4 * x + 3 < SIZE_MOD) :
    write_ff_cell e ff y x (vals ++ (0 :: 0 :: 0 :: 0 :: rest)) = some (vals ++ rowVals e px ++ rest) := by
  have h0 : (4 * x + 0) % SIZE_MOD = 4 * x + 0 := Nat.mod_eq_of_lt (by omega)
  have h1 : (4 * x + 1) % SIZE_MOD = 4 * x + 1 := Nat.mod_eq_of_lt (by omega)
  have h2 : (4 * x + 2) % SIZE_MOD = 4 * x + 2 := Nat.mod_eq_of_lt (by omega)
  have h3 : (4 * x + 3) % SIZE_MOD = 4 * x + 3 := Nat.mod_eq_of_lt (by omega)
  simp only [write_ff_cell, Nat.mod_eq_of_lt hidx, hpx, h0, h1, h2, h3]
  rw [storeAt_append vals _ (4 * x + 0) 0 _ (by omega) (by simp)]
  simp only [Option.some_bind, List.set_cons_zero]
  rw [storeAt_append vals _ (4 * x + 1) 1 _ (by omega) (by simp)]
  simp only [Option.some_bind, List.set_cons_zero, List.set_cons_succ]
  rw [storeAt_append vals _ (4 * x + 2) 2 _ (by omega) (by simp)]
  simp only [Option.some_bind, List.set_cons_zero, List.set_cons_succ]
  rw [storeAt_append vals _ (4 * x + 3) 3 _ (by omega) (by simp)]
  simp [rowVals]

theorem length_flatMap_rowVals (e : Endian) (l : List FF_Pixel) :
    (l.flatMap (rowVals e)).length = 4 * l.length := by
  induction l with
  | nil => rfl
  | cons a l ih =>
    simp only [List.flatMap_cons, List.length_append, ih, rowVals, List.length_cons,
      List.length_nil]
    omega

theorem replicate_four_succ (n : Nat) :
    List.replicate (4 * (n + 1)) (0 : Nat) = 0 :: 0 :: 0 :: 0 :: List.replicate (4 * n) 0 := by
  have : 4 * (n + 1) = 4 * n + 1 + 1 + 1 + 1 := by omega
  rw [this]
  simp [List.replicate_succ]

/-- The loop over `x` of the encoder fills the row buffer with row `y`. -/
theorem write_ff_fill_ok (e : Endian) (ff : FF) (y : Nat)
    (hlen : ff.pixels.length = ff.width * ff.height)
    (hsz : ff.pixels.length < SIZE_MOD) (hw : 4 * ff.width < SIZE_MOD) (hy : y < ff.height) :
    forLoop ff.width (fun x rb => write_ff_cell e ff y x rb) (List.replicate (4 * ff.width) 0)
      = some (((ff.pixels.drop (y * ff.width)).take ff.width).flatMap (rowVals e)) := by
  obtain ⟨rb, hrb, hI⟩ := forLoop_inv (fun x rb => write_ff_cell e ff y x rb)
    (fun x rb => rb = ((ff.pixels.drop (y * ff.width)).take x).flatMap (rowVals e)
      ++ List.replicate (4 * (ff.width - x)) 0) ff.width (List.replicate (4 * ff.width) 0)
    (by simp)
    (fun x rb hx hI => by
      have hlt := src_index_lt ff.width ff.height y x hy hx
      have hin : y * ff.width + x < ff.pixels.length := by omega
      have hpx : ff.pixels[y * ff.width + x]? = some (ff.pixels[y * ff.width + x]) :=
        List.getElem?_eq_getElem hin
      have hvl : (((ff.pixels.drop (y * ff.width)).take x).flatMap (rowVals e)).length = 4 * x := by
        have hx2 : ((ff.pixels.drop (y * ff.width)).take x).length = x := by
          simp only [List.length_take, List.length_drop]; omega
        rw [length_flatMap_rowVals, hx2]
      have hrep : List.replicate (4 * (ff.width - x)) (0 : Nat)
          = 0 :: 0 :: 0 :: 0 :: List.replicate (4 * (ff.width - (x + 1))) 0 := by
        have : ff.width - x = (ff.width - (x + 1)) + 1 := by omega
        rw [this, replicate_four_succ]
      have hI2 : rb = ((ff.pixels.drop (y * ff.width)).take x).flatMap (rowVals e)
          ++ List.replicate (4 * (ff.width - x)) 0 := hI
      refine ⟨_, ?_, rfl⟩
      dsimp only
      rw [hI2, hrep, write_ff_cell_ok e ff y x _ _ _ hpx (by omega) hvl (by omega)]
      simp [List.take_succ, List.getElem?_drop, hpx])
  rw [hrb, hI]
  simp

/-- One pass of the loop over `y` of the encoder appends the encoding of row `y`. -/
theorem write_ff_row_ok (e : Endian) (ff : FF) (y : Nat) (fp : List Nat)
    (hlen : ff.pixels.length = ff.width * ff.height)
    (hsz : ff.pixels.length < SIZE_MOD) (hw : 4 * ff.width < SIZE_MOD) (hy : y < ff.height) :
    write_ff_row e ff y (List.replicate (4 * ff.width) 0, fp)
      = some (List.replicate (4 * ff.width) 0,
          fp ++ ((ff.pixels.drop (y * ff.width)).take ff.width).flatMap encodePixel) := by
  have hfill := write_ff_fill_ok e ff y hlen hsz hw hy
  have hrow : ((ff.pixels.drop (y * ff.width)).take ff.width).length = ff.width := by
    have hlt := src_index_lt ff.width ff.height y 0
    simp only [List.length_take, List.length_drop]
    have h1 : (y + 1) * ff.width ≤ ff.height * ff.width := Nat.mul_le_mul_right _ hy
    have h2 : (y + 1) * ff.width = y * ff.width + ff.width := by ring
    have h3 : ff.height * ff.width = ff.width * ff.height := Nat.mul_comm _ _
    omega
  have hn : ff.width * 4 % SIZE_MOD = 4 * ff.width := by
    rw [Nat.mul_comm]; exact Nat.mod_eq_of_lt hw
  have hl : (((ff.pixels.drop (y * ff.width)).take ff.width).flatMap (rowVals e)).length
      = 4 * ff.width := by
    rw [length_flatMap_rowVals, hrow]
  simp only [write_ff_row, hfill, fwrite_u16, hn, hl, Nat.le_refl, if_true]
  rw [List.take_of_length_le (by omega), List.flatMap_assoc]
  simp only [rowVals_store]

/-- The encoder writes the wire format. -/
theorem write_ff_ok (e : Endian) (ff : FF) (fp : List Nat)
    (hlen : ff.pixels.length = ff.width * ff.height)
    (hsz : ff.pixels.length < SIZE_MOD) (hw : 8 * ff.width < SIZE_MOD) :
    write_ff e ff fp = some (fp ++ encodeImage ff) := by
  have hbuf : ff.width * (4 * 2) % SIZE_MOD / 2 = 4 * ff.width := by
    rw [Nat.mod_eq_of_lt (by omega)]; omega
  obtain ⟨st, hst, hI⟩ := forLoop_inv (fun y st => write_ff_row e ff y st)
    (fun y st => st = (List.replicate (4 * ff.width) 0,
      fputs farbfeld fp ++ store_u32 e (htonl e (ff.width % U32_MOD))
        ++ store_u32 e (htonl e (ff.height % U32_MOD))
        ++ (ff.pixels.take (y * ff.width)).flatMap encodePixel))
    ff.height
    (List.replicate (4 * ff.width) 0,
      fputs farbfeld fp ++ store_u32 e (htonl e (ff.width % U32_MOD))
        ++ store_u32 e (htonl e (ff.height % U32_MOD)))
    (by simp)
    (fun y st hy hI => by
      have hI2 : st = (List.replicate (4 * ff.width) 0,
          fputs farbfeld fp ++ store_u32 e (htonl e (ff.width % U32_MOD))
            ++ store_u32 e (htonl e (ff.height % U32_MOD))
            ++ (ff.pixels.take (y * ff.width)).flatMap encodePixel) := hI
      refine ⟨_, ?_, rfl⟩
      dsimp only
      rw [hI2, write_ff_row_ok e ff y _ hlen hsz (by omega) hy]
      have : (y + 1) * ff.width = y * ff.width + ff.width := by ring
      rw [this, List.take_add, List.flatMap_append]
      simp [List.append_assoc])
  have hall : ff.pixels.take (ff.height * ff.width) = ff.pixels :=
    List.take_of_length_le (by rw [hlen, Nat.mul_comm])
  rw [hI, hall] at hst
  simp only [write_ff, hbuf]
  rw [hst]
  simp [encodeImage, magic, farbfeld, fputs, List.append_assoc, store_u32_htonl]

/-! ## The decoder on a bad or short stream -/

theorem strncmp_cons (a c : Nat) (s1 s2 : List Nat) (n : Nat) (hc : c ≠ 0)
    (h : strncmp (a :: s1) (c :: s2) (n + 1) = 0) : a = c ∧ strncmp s1 s2 n = 0 := by
  unfold strncmp at h
  simp only [List.headD_cons, List.tail_cons] at h
  by_cases hac : a = c
  · subst hac
    simp only [ne_eq, not_true_eq_false, if_false, hc] at h
    exact ⟨rfl, h⟩
  · simp only [ne_eq, hac, not_false_eq_true, if_true] at h
    omega

theorem strncmp_magic (m : List Nat) (hm : m.length = 8) (h : strncmp m farbfeld 8 = 0) :
    m = magic := by
  match m, hm with
  | [a0, a1, a2, a3, a4, a5, a6, a7], _ =>
    obtain ⟨e0, h⟩ := strncmp_cons _ _ _ _ _ (by decide) h
    obtain ⟨e1, h⟩ := strncmp_cons _ _ _ _ _ (by decide) h
    obtain ⟨e2, h⟩ := strncmp_cons _ _ _ _ _ (by decide) h
    obtain ⟨e3, h⟩ := strncmp_cons _ _ _ _ _ (by decide) h
    obtain ⟨e4, h⟩ := strncmp_cons _ _ _ _ _ (by decide) h
    obtain ⟨e5, h⟩ := strncmp_cons _ _ _ _ _ (by decide) h
    obtain ⟨e6, h⟩ := strncmp_cons _ _ _ _ _ (by decide) h
    obtain ⟨e7, _⟩ := strncmp_cons _ _ _ _ _ (by decide) h
    subst e0 e1 e2 e3 e4 e5 e6 e7
    rfl

theorem read_ff_bad_magic (e : Endian) (heap : Nat → Bool) (out : FF) (b : List Nat)
    (fl er : Bool) (hlen : 8 ≤ b.length) (hne : b.take 8 ≠ magic) :
    read_ff e heap out { bytes := b, failing := fl, err := er }
      = (FF_Status.FF_S_BadMagic, out, { bytes := b.drop 8, failing := fl, err := er }) := by
  have hm := efread_ok 1 8 { bytes := b, failing := fl, err := er } (by simp; omega)
  have hcmp : strncmp (b.take (1 * 8)) farbfeld 8 ≠ 0 := by
    intro h
    exact hne (strncmp_magic _ (by simp; omega) h)
  simp only [read_ff, hm, ne_eq, not_true_eq_false, if_false, hcmp, not_false_eq_true, if_true]

theorem read_ff_short_magic (e : Endian) (heap : Nat → Bool) (out : FF) (fp : FILE)
    (hlen : fp.bytes.length < 8) :
    (read_ff e heap out fp).1
        = (if fp.err || fp.failing then FF_Status.FF_S_IOError else FF_Status.FF_S_ExpectedMoar) ∧
      (read_ff e heap out fp).2.1 = out := by
  have hs := efread_short 1 8 fp (by omega)
  have hne : (efread 1 8 fp).1 ≠ FF_Status.FF_S_Success := by
    rw [hs]; split <;> simp
  simp only [read_ff, hne, ne_eq, not_false_eq_true, if_true]
  exact ⟨hs, trivial⟩

theorem read_ff_loop_short (e : Endian) :
    ∀ (k i : Nat) (out : FF) (fp : FILE), fp.bytes.length < 8 * k → fp.err = false →
      fp.failing = false → (read_ff_loop e k i out fp).1 = FF_Status.FF_S_ExpectedMoar := by
  intro k
  induction k with
  | zero => intro i out fp h; omega
  | succ k ih =>
    intro i out fp hlen herr hfail
    by_cases h8 : 2 * 4 ≤ fp.bytes.length
    · have hrd := efread_ok 2 4 fp h8
      simp only [read_ff_loop, hrd, ne_eq, not_true_eq_false, if_false]
      exact ih _ _ _ (by simp only [List.length_drop]; omega) herr hfail
    · have hs := efread_short 2 4 fp (by omega)
      simp only [herr, hfail, Bool.or_self, Bool.false_eq_true, if_false] at hs
      simp only [read_ff_loop, hs, ne_eq, reduceCtorEq, not_false_eq_true, if_true]

theorem read_ff_truncated (e : Endian) (heap : Nat → Bool) (out : FF) (b : List Nat)
    (hb : IsBytes b) (hmagic : b.take 8 = magic)
    (htrunc : b.length < 16 ∨
      (b.length < 16 + 8 * (be32At b 8 * be32At b 12) ∧ heap (be32At b 8 * be32At b 12) = true)) :
    (read_ff e heap out { bytes := b, failing := false, err := false }).1
      = FF_Status.FF_S_ExpectedMoar := by
  have h8 : 8 ≤ b.length := by
    have : (b.take 8).length = 8 := by rw [hmagic]; rfl
    simp only [List.length_take] at this
    omega
  have hm := efread_ok 1 8 { bytes := b, failing := false, err := false } (by simp; omega)
  have hcmp : strncmp (b.take (1 * 8)) farbfeld 8 = 0 := by
    rw [show (1 * 8 : Nat) = 8 from rfl, hmagic]; decide
  by_cases h16 : 16 ≤ b.length
  · rcases htrunc with h | ⟨hlt, halloc⟩
    · omega
    · have hd := efread_ok 4 2 { bytes := b.drop (1 * 8), failing := false, err := false }
        (by simp; omega)
      have hw := read_dim_eq e b hb 0 (by decide)
      have hh := read_dim_eq e b hb 1 (by decide)
      have hsz : be32At b 8 * be32At b 12 % SIZE_MOD = be32At b 8 * be32At b 12 :=
        Nat.mod_eq_of_lt (u32_mul_lt _ _ (be32At_lt b hb 8) (be32At_lt b hb 12))
      simp only [read_ff, hm, hd, hcmp, ne_eq, not_true_eq_false, if_false]
      simp only [show (1 * 8 : Nat) = 8 from rfl] at hw hh ⊢
      simp only [hw, hh, Nat.mul_zero, Nat.add_zero, Nat.mul_one, hsz, calloc, halloc, if_true]
      exact read_ff_loop_short e _ _ _ _ (by simp only [List.length_drop]; omega) rfl rfl
  · have hs := efread_short 4 2 { bytes := b.drop (1 * 8), failing := false, err := false }
      (by simp only [List.length_drop]; omega)
    simp only [Bool.or_self, Bool.false_eq_true, if_false] at hs
    simp only [read_ff, hm, hcmp, ne_eq, not_true_eq_false, if_false, hs, reduceCtorEq,
      not_false_eq_true, if_true]

/-! ## Decoding what was encoded -/

theorem isBytes_append {l1 l2 : List Nat} (h1 : IsBytes l1) (h2 : IsBytes l2) :
    IsBytes (l1 ++ l2) := by
  intro b hbm
  rcases List.mem_append.mp hbm with h | h
  · exact h1 b h
  · exact h2 b h

theorem isBytes_be16 (v : Nat) : IsBytes (be16 v) := by
  intro b hbm
  simp only [be16, List.mem_cons, List.mem_singleton, List.not_mem_nil, or_false] at hbm
  omega

theorem isBytes_be32 (v : Nat) : IsBytes (be32 v) := by
  intro b hbm
  simp only [be32, List.mem_cons, List.mem_singleton, List.not_mem_nil, or_false] at hbm
  omega

theorem isBytes_magic : IsBytes magic := by
  intro b hbm
  simp only [magic, List.mem_cons, List.mem_singleton, List.not_mem_nil, or_false] at hbm
  omega

theorem isBytes_encodePixel (p : FF_Pixel) : IsBytes (encodePixel p) :=
  isBytes_append (isBytes_append (isBytes_append (isBytes_be16 _) (isBytes_be16 _))
    (isBytes_be16 _)) (isBytes_be16 _)

theorem isBytes_encodeImage (ff : FF) : IsBytes (encodeImage ff) := by
  refine isBytes_append (isBytes_append (isBytes_append isBytes_magic (isBytes_be32 _))
    (isBytes_be32 _)) ?_
  intro b hbm
  obtain ⟨p, _, hp⟩ := List.mem_flatMap.mp hbm
  exact isBytes_encodePixel p b hp

theorem length_encodePixels (l : List FF_Pixel) : (l.flatMap encodePixel).length = 8 * l.length := by
  induction l with
  | nil => rfl
  | cons a l ih =>
    simp only [List.flatMap_cons, List.length_append, ih, List.length_cons]
    simp only [encodePixel, be16, List.length_append, List.length_cons, List.length_nil]
    omega

theorem length_encodeImage (ff : FF) : (encodeImage ff).length = 16 + 8 * ff.pixels.length := by
  simp only [encodeImage, List.length_append, length_encodePixels, magic, be32, List.length_cons,
    List.length_nil]

theorem getD_append_add (l1 l2 : List Nat) (n j : Nat) (hn : l1.length = n) :
    (l1 ++ l2).getD (n + j) 0 = l2.getD j 0 := by
  subst hn
  simp [List.getD_eq_getElem?_getD, List.getElem?_append_right]

theorem pixelAt_append (l1 l2 : List Nat) (n o : Nat) (hn : l1.length = n) :
    pixelAt (l1 ++ l2) (n + o) = pixelAt l2 o := by
  simp only [pixelAt, be16At, Nat.add_assoc, getD_append_add l1 l2 n _ hn]

theorem pixelAt_encodePixel (p : FF_Pixel) (hp : p.WF) (rest : List Nat) :
    pixelAt (encodePixel p ++ rest) 0 = p := by
  obtain ⟨hr, hg, hb, ha⟩ := hp
  simp only [U16_MOD] at hr hg hb ha
  cases p with
  | mk r g b a =>
    simp only [pixelAt, be16At, encodePixel, be16, List.cons_append, List.nil_append,
      List.getD_cons_zero, List.getD_cons_succ, FF_Pixel.mk.injEq]
    simp only at hr hg hb ha
    omega

theorem pixelAt_encodePixels (l : List FF_Pixel) (hl : ∀ p ∈ l, p.WF) :
    ∀ j p, l[j]? = some p → pixelAt (l.flatMap encodePixel) (8 * j) = p := by
  induction l with
  | nil => intro j p h; simp at h
  | cons a l ih =>
    intro j p h
    cases j with
    | zero =>
      simp only [List.getElem?_cons_zero, Option.some.injEq] at h
      subst h
      simp only [List.flatMap_cons, Nat.mul_zero]
      exact pixelAt_encodePixel a (hl a (List.mem_cons_self _ _)) _
    | succ j =>
      simp only [List.getElem?_cons_succ] at h
      have e1 : 8 * (j + 1) = 8 + 8 * j := by omega
      rw [List.flatMap_cons, e1, pixelAt_append _ _ 8 _ (by simp [encodePixel, be16])]
      exact ih (fun p hp => hl p (List.mem_cons_of_mem _ hp)) j p h

theorem be32At_encodeImage (ff : FF) (hw : ff.width < U32_MOD) (hh : ff.height < U32_MOD) :
    be32At (encodeImage ff) 8 = ff.width ∧ be32At (encodeImage ff) 12 = ff.height := by
  simp only [U32_MOD] at hw hh
  simp only [be32At, encodeImage, magic, be32, List.cons_append, List.nil_append,
    List.getD_cons_zero, List.getD_cons_succ]
  omega

theorem take_magic_encodeImage (ff : FF) : (encodeImage ff).take 8 = magic := by
  simp [encodeImage, magic]

/-- Decoding the wire encoding of an image gives the pixel sequence back. -/
theorem decode_encode_pixels (ff : FF) (hl : ∀ p ∈ ff.pixels, p.WF) :
    (List.range ff.pixels.length).map (fun j => pixelAt (encodeImage ff) (16 + 8 * j))
      = ff.pixels := by
  apply List.ext_getElem?
  intro k
  by_cases hk : k < ff.pixels.length
  · have hget : ff.pixels[k]? = some (ff.pixels[k]) := List.getElem?_eq_getElem hk
    have hpre : (magic ++ be32 ff.width ++ be32 ff.height).length = 16 := by
      simp [magic, be32]
    simp only [List.getElem?_map, List.getElem?_range hk, Option.map_some', hget, encodeImage,
      Option.some.injEq]
    rw [pixelAt_append _ _ 16 _ hpre]
    exact pixelAt_encodePixels ff.pixels hl k _ hget
  · rw [List.getElem?_eq_none (by simp; omega), List.getElem?_eq_none (by omega)]

/-! ## The claims -/

/-- C1. Pipeline round trip at scale 1: on a byte stream that is a valid farbfeld image
(bytes below 256, the magic value, a big-endian width and height, then exactly
`8 * width * height` bytes of pixel data), when the allocator grants the request for
`width * height` pixels (made by the decoder and, at scale 1, by the scaler), `read_ff`
succeeds, `scale_ff` by 1 followed by `write_ff` emits exactly the original stream, and
so does `main` with exit status 0. -/
theorem pipeline_round_trip_scale_one (e : Endian) (heap : Nat → Bool) (pre : FF) (b : List Nat)
    (fl er : Bool) (hb : IsBytes b) (hmagic : b.take 8 = magic)
    (hlen : b.length = 16 + 8 * (be32At b 8 * be32At b 12))
    (halloc : heap (be32At b 8 * be32At b 12) = true) :
    (read_ff e heap pre { bytes := b, failing := fl, err := er }).1 = FF_Status.FF_S_Success ∧
    (scale_ff heap (read_ff e heap pre { bytes := b, failing := fl, err := er }).2.1 1).bind
        (fun new => write_ff e new []) = some b ∧
    main e heap 2 false false 1 pre { bytes := b, failing := fl, err := er } = some (0, b) := by
  have hrd := read_ff_ok e heap pre b fl er hb hmagic (by omega) halloc
  have hwl := be32At_lt b hb 8
  have hhl := be32At_lt b hb 12
  have hprod := u32_mul_lt _ _ hwl hhl
  have hsc := scale_ff_one_eq heap
    { height := be32At b 12, width := be32At b 8,
      pixels := (List.range (be32At b 8 * be32At b 12)).map (fun j => pixelAt b (16 + 8 * j)) }
    (by simp) (by simp only [U32_MOD, SIZE_MOD] at *; omega)
    (by simp only [U32_MOD, SIZE_MOD] at *; omega) (by simpa using hprod)
    (by simpa using halloc)
  have hwr := write_ff_ok e
    { height := be32At b 12, width := be32At b 8,
      pixels := (List.range (be32At b 8 * be32At b 12)).map (fun j => pixelAt b (16 + 8 * j)) } []
    (by simp) (by simpa using hprod) (by simp only [U32_MOD, SIZE_MOD] at *; omega)
  rw [encode_decode b hb hmagic hlen] at hwr
  refine ⟨by rw [hrd], ?_, ?_⟩
  · rw [hrd]
    simp only [hsc, Option.some_bind, hwr, List.nil_append]
  · simp only [main, hrd, hsc, hwr]
    simp

theorem pipeline_round_trip_scale_one_witness :
    main Endian.little heapAll 2 false false 1 out0
      { bytes := stream21, failing := false, err := false } = some (0, stream21) :=
  (pipeline_round_trip_scale_one Endian.little heapAll out0 stream21 false false
    (by decide) (by decide) (by decide) (by decide)).2.2

/-- C2, the claim fails: for the 1x1 image and the scale `2 ^ 31` no product wraps, but
the output would have `2 ^ 62` pixels of 8 bytes; even the most generous allocator refuses
the request, `calloc` returns a null pointer and the first store through it is outside any
object, so `scale_ff` returns no image. -/
theorem scale_ff_nearest_neighbour_counterexample :
    img11.pixels.length = img11.width * img11.height ∧ 1 ≤ 2147483648 ∧
    img11.width * 2147483648 < SIZE_MOD ∧ img11.height * 2147483648 < SIZE_MOD ∧
    img11.width * 2147483648 * (img11.height * 2147483648) < SIZE_MOD ∧
    calloc heapFits (img11.width * 2147483648 * (img11.height * 2147483648)) = none ∧
    scale_ff heapFits img11 2147483648 = none := by
  decide

/-- C2, amended. Nearest-neighbour replication when the allocation is granted: for an image
with `len(pixels) = width * height` and a scale of at least 1 for which `width * scale`,
`height * scale` and their product do not wrap `size_t`, if `calloc` grants the request
for the output pixels, `scale_ff` returns an image of width `width * scale` and height
`height * scale` in which, for every source pixel `(x, y)` and all `dx, dy` below `scale`,
the pixel at index `(y * scale + dy) * (width * scale) + (x * scale + dx)` is the source
pixel at index `y * width + x`; equivalently, output pixel `(X, Y)` is source pixel
`(X / scale, Y / scale)`. -/
theorem scale_ff_nearest_neighbour (heap : Nat → Bool) (img : FF) (scale : Nat)
    (hlen : img.pixels.length = img.width * img.height)
    (hscale : 1 ≤ scale)
    (hw : img.width * scale < SIZE_MOD) (hh : img.height * scale < SIZE_MOD)
    (hsz : img.width * scale * (img.height * scale) < SIZE_MOD)
    (halloc : heap (img.width * scale * (img.height * scale)) = true) :
    ∃ out, scale_ff heap img scale = some out ∧
      out.width = img.width * scale ∧ out.height = img.height * scale ∧
      out.pixels.length = img.width * scale * (img.height * scale) ∧
      (∀ x y dx dy, x < img.width → y < img.height → dx < scale → dy < scale →
        ∃ px, img.pixels[y * img.width + x]? = some px ∧
          out.pixels[(y * scale + dy) * (img.width * scale) + (x * scale + dx)]? = some px) ∧
      (∀ X Y, X < img.width * scale → Y < img.height * scale →
        ∃ px, img.pixels[Y / scale * img.width + X / scale]? = some px ∧
          out.pixels[Y * (img.width * scale) + X]? = some px) := by
  have hle := mul_le_scaled img.width img.height scale hscale
  obtain ⟨p, hrun, hp, hblk⟩ := scale_ff_spec heap img scale hlen (by omega) hw hh hsz halloc
  have hblock : ∀ x y dx dy, x < img.width → y < img.height → dx < scale → dy < scale →
      ∃ px, img.pixels[y * img.width + x]? = some px ∧
        p[(y * scale + dy) * (img.width * scale) + (x * scale + dx)]? = some px := by
    intro x y dx dy hx hy hdx hdy
    have hlt := src_index_lt img.width img.height y x hy hx
    have hin : y * img.width + x < img.pixels.length := by omega
    refine ⟨img.pixels[y * img.width + x], List.getElem?_eq_getElem hin, ?_⟩
    have := hblk y x dy dx hy hx hdy hdx
    rw [List.getElem?_eq_getElem hin] at this
    exact this
  refine ⟨_, hrun, rfl, rfl, hp, hblock, ?_⟩
  intro X Y hX hY
  have hs : 0 < scale := hscale
  have hx : X / scale < img.width := Nat.div_lt_of_lt_mul (by rw [Nat.mul_comm]; exact hX)
  have hy : Y / scale < img.height := Nat.div_lt_of_lt_mul (by rw [Nat.mul_comm]; exact hY)
  obtain ⟨px, h1, h2⟩ := hblock (X / scale) (Y / scale) (X % scale) (Y % scale) hx hy
    (Nat.mod_lt _ hs) (Nat.mod_lt _ hs)
  refine ⟨px, h1, ?_⟩
  have eX : X / scale * scale + X % scale = X := by
    rw [Nat.mul_comm]; exact Nat.div_add_mod X scale
  have eY : Y / scale * scale + Y % scale = Y := by
    rw [Nat.mul_comm]; exact Nat.div_add_mod Y scale
  rw [eX, eY] at h2
  exact h2

theorem scale_ff_nearest_neighbour_witness :
    scale_ff heapFits img21 2 = some
      { height := 2, width := 4,
        pixels := [⟨0, 0, 0, 65535⟩, ⟨0, 0, 0, 65535⟩, ⟨65535, 65535, 65535, 65535⟩,
                   ⟨65535, 65535, 65535, 65535⟩,
                   ⟨0, 0, 0, 65535⟩, ⟨0, 0, 0, 65535⟩, ⟨65535, 65535, 65535, 65535⟩,
                   ⟨65535, 65535, 65535, 65535⟩] } ∧
    ∃ out, scale_ff heapFits img21 2 = some out ∧
      out.width = img21.width * 2 ∧ out.height = img21.height * 2 ∧
      out.pixels.length = img21.width * 2 * (img21.height * 2) ∧
      (∀ x y dx dy, x < img21.width → y < img21.height → dx < 2 → dy < 2 →
        ∃ px, img21.pixels[y * img21.width + x]? = some px ∧
          out.pixels[(y * 2 + dy) * (img21.width * 2) + (x * 2 + dx)]? = some px) ∧
      (∀ X Y, X < img21.width * 2 → Y < img21.height * 2 →
        ∃ px, img21.pixels[Y / 2 * img21.width + X / 2]? = some px ∧
          out.pixels[Y * (img21.width * 2) + X]? = some px) :=
  ⟨by decide, scale_ff_nearest_neighbour heapFits img21 2 (by decide) (by decide) (by decide)
    (by decide) (by decide) (by decide)⟩

/-- C3, the claim fails: `write_ff` encodes the 2x1 image `img21` (dimensions below
`2 ^ 32`, two pixels) as `stream21`, and when `calloc` returns a null pointer `read_ff`
on that stream returns `FF_S_AllocError`, not `FF_S_Success`. -/
theorem read_ff_write_ff_counterexample :
    img21.pixels.length = img21.width * img21.height ∧
    img21.width < U32_MOD ∧ img21.height < U32_MOD ∧
    write_ff Endian.little img21 [] = some stream21 ∧
    (read_ff Endian.little heapNone out0 { bytes := stream21, failing := false, err := false }).1
      = FF_Status.FF_S_AllocError ∧
    (read_ff Endian.little heapNone out0 { bytes := stream21, failing := false, err := false }).1
      ≠ FF_Status.FF_S_Success := by
  decide

/-- C3, amended. Decode undoes encode when the allocation is granted: for an image with
`len(pixels) = width * height`, both dimensions below `2 ^ 32` and 16-bit channels,
`write_ff` writes a stream on which `read_ff`, if `calloc` grants its request, returns
`FF_S_Success` with an image of the same width, height and pixel sequence, having read
the whole stream. -/
theorem read_ff_write_ff (e : Endian) (heap : Nat → Bool) (pre : FF) (img : FF) (fl er : Bool)
    (hlen : img.pixels.length = img.width * img.height)
    (hw : img.width < U32_MOD) (hh : img.height < U32_MOD)
    (hpx : ∀ p ∈ img.pixels, p.WF)
    (halloc : heap (img.width * img.height) = true) :
    ∃ bytes, write_ff e img [] = some bytes ∧
      read_ff e heap pre { bytes := bytes, failing := fl, err := er }
        = (FF_Status.FF_S_Success, img, { bytes := [], failing := fl, err := er }) := by
  have hprod := u32_mul_lt _ _ hw hh
  have hwr := write_ff_ok e img [] hlen (by omega) (by simp only [U32_MOD, SIZE_MOD] at *; omega)
  rw [List.nil_append] at hwr
  obtain ⟨e8, e12⟩ := be32At_encodeImage img hw hh
  have hl := length_encodeImage img
  have hrd := read_ff_ok e heap pre (encodeImage img) fl er (isBytes_encodeImage img)
    (take_magic_encodeImage img) (by rw [e8, e12, hl, hlen]) (by rw [e8, e12]; exact halloc)
  refine ⟨encodeImage img, hwr, ?_⟩
  rw [hrd, e8, e12, ← hlen, decode_encode_pixels img hpx,
    List.drop_of_length_le (by rw [hl])]

theorem read_ff_write_ff_witness :
    write_ff Endian.big img21 [] = some stream21 ∧
    read_ff Endian.big heapAll out0 { bytes := stream21, failing := false, err := false }
      = (FF_Status.FF_S_Success, img21, { bytes := [], failing := false, err := false }) := by
  obtain ⟨bytes, h1, h2⟩ := read_ff_write_ff Endian.big heapAll out0 img21 false false
    (by decide) (by decide) (by decide) (by decide) (by decide)
  have hb : bytes = stream21 := by
    have h3 : write_ff Endian.big img21 [] = some stream21 := by decide
    rw [h1] at h3
    exact Option.some.inj h3
  subst hb
  exact ⟨h1, h2⟩

/-- C4. Decoder functional correctness: on a byte stream whose first 8 bytes are the magic
value and that holds at least `16 + 8 * w * h` bytes, where `w` and `h` are the big-endian
32-bit values at offsets 8 and 12, `read_ff` returns `FF_S_Success` with `width = w`,
`height = h` and exactly `w * h` pixels, pixel `i` having the big-endian 16-bit values at
offsets `16 + 8 * i`, `+ 2`, `+ 4`, `+ 6` as its channels, when the allocation is granted. -/
theorem read_ff_correct (e : Endian) (heap : Nat → Bool) (out : FF) (b : List Nat) (fl er : Bool)
    (hb : IsBytes b) (hmagic : b.take 8 = magic)
    (hlen : 16 + 8 * (be32At b 8 * be32At b 12) ≤ b.length)
    (halloc : heap (be32At b 8 * be32At b 12) = true) :
    (read_ff e heap out { bytes := b, failing := fl, err := er }).1 = FF_Status.FF_S_Success ∧
    (read_ff e heap out { bytes := b, failing := fl, err := er }).2.1.width = be32At b 8 ∧
    (read_ff e heap out { bytes := b, failing := fl, err := er }).2.1.height = be32At b 12 ∧
    (read_ff e heap out { bytes := b, failing := fl, err := er }).2.1.pixels.length
      = be32At b 8 * be32At b 12 ∧
    ∀ i, i < be32At b 8 * be32At b 12 →
      (read_ff e heap out { bytes := b, failing := fl, err := er }).2.1.pixels[i]?
        = some { r := be16At b (16 + 8 * i), g := be16At b (16 + 8 * i + 2),
                 b := be16At b (16 + 8 * i + 4), a := be16At b (16 + 8 * i + 6) } := by
  rw [read_ff_ok e heap out b fl er hb hmagic hlen halloc]
  refine ⟨rfl, rfl, rfl, by simp, ?_⟩
  intro i hi
  simp [List.getElem?_range hi, pixelAt]

theorem read_ff_correct_witness :
    (read_ff Endian.big heapAll out0 { bytes := stream21 ++ [1, 2, 3], failing := false, err := false }).1
      = FF_Status.FF_S_Success ∧
    (read_ff Endian.big heapAll out0
      { bytes := stream21 ++ [1, 2, 3], failing := false, err := false }).2.1.pixels[1]?
      = some { r := 65535, g := 65535, b := 65535, a := 65535 } :=
  have h := read_ff_correct Endian.big heapAll out0 (stream21 ++ [1, 2, 3]) false false
    (by decide) (by decide) (by decide) (by decide)
  ⟨h.1, h.2.2.2.2 1 (by decide)⟩

/-- C5. Encoder wire format: for an image with `len(pixels) = width * height` and both
dimensions below `2 ^ 32`, `write_ff` appends to the stream exactly the magic value, the
big-endian 32-bit width and height, and the big-endian 16-bit channels r, g, b, a of every
pixel in row-major order (row buffering changes nothing), `8 + 8 + 8 * width * height`
bytes in all. -/
theorem write_ff_wire_format (e : Endian) (img : FF) (fp : List Nat)
    (hlen : img.pixels.length = img.width * img.height)
    (hw : img.width < U32_MOD) (hh : img.height < U32_MOD) :
    write_ff e img fp
      = some (fp ++ (magic ++ be32 img.width ++ be32 img.height
          ++ img.pixels.flatMap (fun p => be16 p.r ++ be16 p.g ++ be16 p.b ++ be16 p.a))) ∧
    (magic ++ be32 img.width ++ be32 img.height
      ++ img.pixels.flatMap (fun p => be16 p.r ++ be16 p.g ++ be16 p.b ++ be16 p.a)).length
      = 8 + 8 + 8 * (img.width * img.height) := by
  have hprod := u32_mul_lt _ _ hw hh
  have hok := write_ff_ok e img fp hlen (by omega) (by simp only [U32_MOD, SIZE_MOD] at *; omega)
  have hl := length_encodeImage img
  simp only [encodeImage] at hok hl
  exact ⟨hok, by rw [← hlen]; exact hl⟩

theorem write_ff_wire_format_witness :
    write_ff Endian.little img21 [] = some stream21 :=
  (write_ff_wire_format Endian.little img21 [] (by decide) (by decide) (by decide)).1

/-- C6. Bad magic on mismatch: on a stream of at least 8 bytes whose first 8 bytes are not
the magic value, `read_ff` returns `FF_S_BadMagic` whatever follows, and leaves `out`
untouched. -/
theorem read_ff_magic_mismatch (e : Endian) (heap : Nat → Bool) (out : FF) (b : List Nat)
    (fl er : Bool) (hlen : 8 ≤ b.length) (hne : b.take 8 ≠ magic) :
    (read_ff e heap out { bytes := b, failing := fl, err := er }).1 = FF_Status.FF_S_BadMagic ∧
    (read_ff e heap out { bytes := b, failing := fl, err := er }).2.1 = out := by
  rw [read_ff_bad_magic e heap out b fl er hlen hne]
  exact ⟨rfl, rfl⟩

theorem read_ff_magic_mismatch_witness :
    (read_ff Endian.little heapAll out0
        { bytes := [70, 65, 82, 66, 70, 69, 76, 68, 0, 0, 0, 1, 0, 0, 0, 1],
          failing := false, err := false }).1 = FF_Status.FF_S_BadMagic ∧
    (read_ff Endian.little heapAll out0
        { bytes := [102, 97, 114, 0, 102, 101, 108, 100, 9],
          failing := false, err := false }).1 = FF_Status.FF_S_BadMagic :=
  ⟨(read_ff_magic_mismatch Endian.little heapAll out0
      [70, 65, 82, 66, 70, 69, 76, 68, 0, 0, 0, 1, 0, 0, 0, 1] false false
      (by decide) (by decide)).1,
   (read_ff_magic_mismatch Endian.little heapAll out0
      [102, 97, 114, 0, 102, 101, 108, 100, 9] false false (by decide) (by decide)).1⟩

/-- C7, the claim fails: the stream truncated to the 4 bytes `farb` makes `read_ff` return
`FF_S_ExpectedMoar`, which is not `FF_S_BadMagic`. -/
theorem read_ff_short_magic_counterexample :
    (read_ff Endian.little heapAll out0
        { bytes := [102, 97, 114, 98], failing := false, err := false }).1
      = FF_Status.FF_S_ExpectedMoar ∧
    (read_ff Endian.little heapAll out0
        { bytes := [102, 97, 114, 98], failing := false, err := false }).1
      ≠ FF_Status.FF_S_BadMagic := by
  decide

/-- C7, amended. Short read of the magic value: on a stream shorter than 8 bytes `read_ff`
fails with `FF_S_ExpectedMoar` when the stream ends without a fault and with `FF_S_IOError`
when a read fault cut it short; it never returns `FF_S_BadMagic` or `FF_S_Success`, and
leaves `out` untouched. -/
theorem read_ff_short_magic_status (e : Endian) (heap : Nat → Bool) (out : FF) (fp : FILE)
    (hlen : fp.bytes.length < 8) :
    (read_ff e heap out fp).1
      = (if fp.err || fp.failing then FF_Status.FF_S_IOError else FF_Status.FF_S_ExpectedMoar) ∧
    (read_ff e heap out fp).1 ≠ FF_Status.FF_S_BadMagic ∧
    (read_ff e heap out fp).1 ≠ FF_Status.FF_S_Success ∧
    (read_ff e heap out fp).2.1 = out := by
  obtain ⟨h1, h2⟩ := read_ff_short_magic e heap out fp hlen
  refine ⟨h1, ?_, ?_, h2⟩ <;> rw [h1] <;> split <;> simp

theorem read_ff_short_magic_status_witness :
    (read_ff Endian.big heapAll out0 { bytes := [], failing := false, err := false }).1
      = FF_Status.FF_S_ExpectedMoar :=
  (read_ff_short_magic_status Endian.big heapAll out0
    { bytes := [], failing := false, err := false } (by decide)).1

/-- C8. Truncation is reported as unexpected end of stream: on a fault-free stream that
starts with the magic value and is shorter than 16 bytes, or shorter than the
`16 + 8 * w * h` bytes its header declares, `read_ff` returns `FF_S_ExpectedMoar` and not
`FF_S_Success`, when the allocation (attempted once the header is complete) is granted. -/
theorem read_ff_truncated_expected_moar (e : Endian) (heap : Nat → Bool) (out : FF)
    (b : List Nat) (hb : IsBytes b) (hmagic : b.take 8 = magic)
    (htrunc : b.length < 16 ∨ b.length < 16 + 8 * (be32At b 8 * be32At b 12))
    (halloc : 16 ≤ b.length → heap (be32At b 8 * be32At b 12) = true) :
    (read_ff e heap out { bytes := b, failing := false, err := false }).1
      = FF_Status.FF_S_ExpectedMoar ∧
    (read_ff e heap out { bytes := b, failing := false, err := false }).1
      ≠ FF_Status.FF_S_Success := by
  have h : (read_ff e heap out { bytes := b, failing := false, err := false }).1
      = FF_Status.FF_S_ExpectedMoar := by
    apply read_ff_truncated e heap out b hb hmagic
    by_cases h16 : 16 ≤ b.length
    · exact Or.inr ⟨by omega, halloc h16⟩
    · exact Or.inl (by omega)
  exact ⟨h, by rw [h]; simp⟩

theorem read_ff_truncated_expected_moar_witness :
    (read_ff Endian.little heapAll out0
        { bytes := stream21.take 31, failing := false, err := false }).1
      = FF_Status.FF_S_ExpectedMoar ∧
    (read_ff Endian.little heapAll out0
        { bytes := stream21.take 12, failing := false, err := false }).1
      = FF_Status.FF_S_ExpectedMoar :=
  ⟨(read_ff_truncated_expected_moar Endian.little heapAll out0 (stream21.take 31)
      (by decide) (by decide) (by decide) (by decide)).1,
   (read_ff_truncated_expected_moar Endian.little heapAll out0 (stream21.take 12)
      (by decide) (by decide) (by decide) (by decide)).1⟩

/-- C9, the claim fails: when `calloc(0, 8)` returns a null pointer, `read_ff` on the
16-byte stream of a 0x3 image returns `FF_S_AllocError`, not `FF_S_Success`. -/
theorem empty_image_counterexample :
    stream03.length = 16 ∧ stream03.take 8 = magic ∧ be32At stream03 8 = 0 ∧
    (read_ff Endian.little heapNone out0 { bytes := stream03, failing := false, err := false }).1
      = FF_Status.FF_S_AllocError ∧
    (read_ff Endian.little heapNone out0 { bytes := stream03, failing := false, err := false }).1
      ≠ FF_Status.FF_S_Success := by
  decide

/-- C9, amended. Empty images are valid when the allocation is granted: on a 16-byte stream
made of the magic value, a big-endian width and a big-endian height of which one is 0,
`read_ff`, if `calloc` grants the request for 0 pixels, returns `FF_S_Success` with that
width and height and an empty pixel sequence, and `write_ff` of that image emits exactly
the 16 bytes of the input. -/
theorem empty_image_round_trip (e : Endian) (heap : Nat → Bool) (out : FF) (b : List Nat)
    (fl er : Bool) (hb : IsBytes b) (hlen : b.length = 16) (hmagic : b.take 8 = magic)
    (hempty : be32At b 8 = 0 ∨ be32At b 12 = 0) (halloc : heap 0 = true) :
    read_ff e heap out { bytes := b, failing := fl, err := er }
      = (FF_Status.FF_S_Success, { height := be32At b 12, width := be32At b 8, pixels := [] },
          { bytes := [], failing := fl, err := er }) ∧
    write_ff e { height := be32At b 12, width := be32At b 8, pixels := [] } [] = some b ∧
    b.length = 16 := by
  have hz : be32At b 8 * be32At b 12 = 0 := by
    rcases hempty with h | h <;> simp [h]
  have hwl := be32At_lt b hb 8
  have hhl := be32At_lt b hb 12
  have hrd := read_ff_ok e heap out b fl er hb hmagic (by rw [hz]; omega) (by rw [hz]; exact halloc)
  have hwr := write_ff_ok e { height := be32At b 12, width := be32At b 8, pixels := [] } []
    (by simp [hz]) (by simp [SIZE_MOD]) (by simp only [U32_MOD, SIZE_MOD] at *; omega)
  have hed := encode_decode b hb hmagic (by rw [hz]; omega)
  rw [hz] at hrd hed
  simp only [List.range_zero, List.map_nil, Nat.mul_zero, Nat.add_zero] at hrd hed
  rw [hed] at hwr
  refine ⟨?_, by simpa using hwr, hlen⟩
  rw [hrd, List.drop_of_length_le (by omega)]

theorem empty_image_round_trip_witness :
    read_ff Endian.little heapAll out0 { bytes := stream03, failing := false, err := false }
      = (FF_Status.FF_S_Success, { height := 3, width := 0, pixels := [] },
          { bytes := [], failing := false, err := false }) ∧
    write_ff Endian.little { height := 3, width := 0, pixels := [] } [] = some stream03 ∧
    stream03.length = 16 :=
  empty_image_round_trip Endian.little heapAll out0 stream03 false false
    (by decide) (by decide) (by decide) (by decide) (by decide)

theorem forLoopFrom_preserve {σ : Type} (P : σ → Prop) (body : Nat → σ → Option σ)
    (hbody : ∀ i s t, P s → body i s = some t → P t) :
    ∀ (k i : Nat) (s t : σ), P s → forLoopFrom body k i s = some t → P t := by
  intro k
  induction k with
  | zero =>
    intro i s t hs h
    simp only [forLoopFrom, Option.some.injEq] at h
    exact h ▸ hs
  | succ k ih =>
    intro i s t hs h
    simp only [forLoopFrom] at h
    cases hb : body i s with
    | none => simp [hb] at h
    | some s1 =>
      simp only [hb] at h
      exact ih (i + 1) s1 t (hbody i s s1 hs hb) h

theorem forLoop_preserve {σ : Type} (P : σ → Prop) (body : Nat → σ → Option σ)
    (hbody : ∀ i s t, P s → body i s = some t → P t) (n : Nat) (s t : σ) (hs : P s)
    (h : forLoop n body s = some t) : P t :=
  forLoopFrom_preserve P body hbody n 0 s t hs h

theorem forLoopFrom_none {σ : Type} (body : Nat → σ → Option σ) (k i : Nat) (s : σ)
    (h : body i s = none) : forLoopFrom body (k + 1) i s = none := by
  simp only [forLoopFrom, h]

/-- The pixel loop of the decoder keeps the dimensions and the length of the buffer. -/
theorem read_ff_loop_shape (e : Endian) :
    ∀ (k i : Nat) (out : FF) (fp : FILE),
      (read_ff_loop e k i out fp).2.1.width = out.width ∧
      (read_ff_loop e k i out fp).2.1.height = out.height ∧
      (read_ff_loop e k i out fp).2.1.pixels.length = out.pixels.length := by
  intro k
  induction k with
  | zero => intro i out fp; exact ⟨rfl, rfl, rfl⟩
  | succ k ih =>
    intro i out fp
    by_cases h : (efread 2 4 fp).1 = FF_Status.FF_S_Success
    · simp only [read_ff_loop, h, ne_eq, not_true_eq_false, if_false]
      refine ⟨(ih _ _ _).1, (ih _ _ _).2.1, ?_⟩
      rw [(ih _ _ _).2.2]
      simp
    · simp [read_ff_loop, h]

/-- A successful `read_ff` returns an image with `width * height` pixels. -/
theorem read_ff_success_shape (e : Endian) (heap : Nat → Bool) (out : FF) (fp : FILE)
    (h : (read_ff e heap out fp).1 = FF_Status.FF_S_Success) :
    (read_ff e heap out fp).2.1.pixels.length
      = (read_ff e heap out fp).2.1.width * (read_ff e heap out fp).2.1.height % SIZE_MOD := by
  by_cases h1 : (efread 1 8 fp).1 = FF_Status.FF_S_Success
  · by_cases h2 : strncmp (efread 1 8 fp).2.1 farbfeld 8 = 0
    · by_cases h3 : (efread 4 2 (efread 1 8 fp).2.2).1 = FF_Status.FF_S_Success
      · cases h4 : heap (ntohl e (load_u32 e (efread 4 2 (efread 1 8 fp).2.2).2.1 0)
            * ntohl e (load_u32 e (efread 4 2 (efread 1 8 fp).2.2).2.1 1) % SIZE_MOD) with
        | false =>
          simp [read_ff, h1, h2, h3, calloc, h4] at h
        | true =>
          simp only [read_ff, h1, h2, h3, calloc, h4, ne_eq, not_true_eq_false, if_false, if_true]
          obtain ⟨e1, e2, e3⟩ := read_ff_loop_shape e
            (ntohl e (load_u32 e (efread 4 2 (efread 1 8 fp).2.2).2.1 0)
              * ntohl e (load_u32 e (efread 4 2 (efread 1 8 fp).2.2).2.1 1) % SIZE_MOD) 0
            { height := ntohl e (load_u32 e (efread 4 2 (efread 1 8 fp).2.2).2.1 1),
              width := ntohl e (load_u32 e (efread 4 2 (efread 1 8 fp).2.2).2.1 0),
              pixels := List.replicate
                (ntohl e (load_u32 e (efread 4 2 (efread 1 8 fp).2.2).2.1 0)
                  * ntohl e (load_u32 e (efread 4 2 (efread 1 8 fp).2.2).2.1 1) % SIZE_MOD)
                zeroPixel }
            (efread 4 2 (efread 1 8 fp).2.2).2.2
          rw [e1, e2, e3]
          simp
      · simp [read_ff, h1, h2, h3] at h
    · simp [read_ff, h1, h2] at h
  · simp [read_ff, h1] at h

theorem Logged.weaken {sz n m : Nat} {C D : Nat → Prop} {st : ScaleState}
    (h : Logged sz n C st) (hnm : n = m) (hCD : ∀ k, D k → C k) : Logged sz m D st :=
  ⟨h.1, hnm ▸ h.2.1, h.2.2.1, fun k hk => h.2.2.2 k (hCD k hk)⟩

theorem scale_ff_store_eq (w h s y x dy dx : Nat) (px : FF_Pixel) (st : ScaleState)
    (hM : w * s * (h * s) < SIZE_MOD)
    (hy : y < h) (hx : x < w) (hdy : dy < s) (hdx : dx < s)
    (hlen : st.pixels.length = w * s * (h * s)) :
    scale_ff_store (w * s) s y x px dy dx st
      = some { pixels := st.pixels.set (blockIndex w s y x dy dx) px,
               writes := st.writes ++ [blockIndex w s y x dy dx] } := by
  have hlt := block_index_lt w h s y x dy dx hy hx hdy hdx
  have hW : 0 < w * s := Nat.mul_pos (by omega) (by omega)
  have h1 : y * s + dy ≤ (y * s + dy) * (w * s) := Nat.le_mul_of_pos_right _ hW
  have hy1 : (y * s + dy) % SIZE_MOD = y * s + dy := Nat.mod_eq_of_lt (by omega)
  have hx1 : (x * s + dx) % SIZE_MOD = x * s + dx := Nat.mod_eq_of_lt (by omega)
  have hi1 : ((y * s + dy) * (w * s) + (x * s + dx)) % SIZE_MOD
      = (y * s + dy) * (w * s) + (x * s + dx) := Nat.mod_eq_of_lt (by omega)
  simp only [scale_ff_store, hy1, hx1, hi1, blockIndex]
  rw [if_pos (by omega)]

theorem scale_ff_store_logged (ff : FF) (s y x dy dx n : Nat) (px : FF_Pixel) (C : Nat → Prop)
    (st : ScaleState)
    (hM : ff.width * s * (ff.height * s) < SIZE_MOD)
    (hy : y < ff.height) (hx : x < ff.width) (hdy : dy < s) (hdx : dx < s)
    (hL : Logged (ff.width * s * (ff.height * s)) n C st) :
    ∃ st1, scale_ff_store (ff.width * s) s y x px dy dx st = some st1 ∧
      Logged (ff.width * s * (ff.height * s)) (n + 1)
        (fun k => C k ∨ k = blockIndex ff.width s y x dy dx) st1 := by
  have hlt := block_index_lt ff.width ff.height s y x dy dx hy hx hdy hdx
  refine ⟨_, scale_ff_store_eq ff.width ff.height s y x dy dx px st hM hy hx hdy hdx hL.1,
    ?_, ?_, ?_, ?_⟩
  · simp [hL.1]
  · simp [hL.2.1]
  · intro k hk
    simp only [List.mem_append, List.mem_singleton] at hk
    rcases hk with hk | hk
    · exact hL.2.2.1 k hk
    · rw [hk]; simp only [blockIndex]; exact hlt
  · intro k hk
    simp only [List.mem_append, List.mem_singleton]
    rcases hk with hk | hk
    · exact Or.inl (hL.2.2.2 k hk)
    · exact Or.inr hk

theorem scale_ff_block_logged (ff : FF) (s y x n : Nat) (px : FF_Pixel) (C : Nat → Prop)
    (st : ScaleState)
    (hM : ff.width * s * (ff.height * s) < SIZE_MOD)
    (hy : y < ff.height) (hx : x < ff.width)
    (hL : Logged (ff.width * s * (ff.height * s)) n C st) :
    ∃ st1, scale_ff_block (ff.width * s) s y x px st = some st1 ∧
      Logged (ff.width * s * (ff.height * s)) (n + s * s)
        (fun k => C k ∨ ∃ dy, dy < s ∧ ∃ dx, dx < s ∧ k = blockIndex ff.width s y x dy dx)
        st1 := by
  unfold scale_ff_block
  refine forLoop_inv
    (fun dy s1 => forLoop s (fun dx s2 => scale_ff_store (ff.width * s) s y x px dy dx s2) s1)
    (fun i t => Logged (ff.width * s * (ff.height * s)) (n + i * s)
      (fun k => C k ∨ ∃ dy, dy < i ∧ ∃ dx, dx < s ∧ k = blockIndex ff.width s y x dy dx) t)
    s st ?_ ?_
  · exact hL.weaken (by simp) (fun k hk => by
      rcases hk with hk | ⟨dy, hdy, _⟩
      · exact hk
      · omega)
  · intro dy t hdy hI
    have := forLoop_inv (fun dx s2 => scale_ff_store (ff.width * s) s y x px dy dx s2)
      (fun j t => Logged (ff.width * s * (ff.height * s)) (n + dy * s + j)
        (fun k => (C k ∨ ∃ dy1, dy1 < dy ∧ ∃ dx, dx < s ∧ k = blockIndex ff.width s y x dy1 dx)
          ∨ ∃ dx, dx < j ∧ k = blockIndex ff.width s y x dy dx) t) s t
      (hI.weaken (by simp) (fun k hk => by
        rcases hk with hk | ⟨dx, hdx, _⟩
        · exact hk
        · omega))
      (fun dx t2 hdx hI2 => by
        obtain ⟨t3, h3, hA3⟩ := scale_ff_store_logged ff s y x dy dx _ px _ t2 hM hy hx hdy hdx hI2
        refine ⟨t3, h3, hA3.weaken rfl ?_⟩
        intro k hk
        rcases hk with hk | ⟨dx1, hdx1, hk⟩
        · exact Or.inl (Or.inl hk)
        · by_cases hd : dx1 = dx
          · subst hd; exact Or.inr hk
          · exact Or.inl (Or.inr ⟨dx1, by omega, hk⟩))
    obtain ⟨t1, ht1, hA1⟩ := this
    refine ⟨t1, ht1, hA1.weaken (by rw [Nat.add_mul, Nat.one_mul, Nat.add_assoc]) ?_⟩
    intro k hk
    rcases hk with hk | ⟨dy1, hdy1, dx, hdx, hk⟩
    · exact Or.inl (Or.inl hk)
    · by_cases hd : dy1 = dy
      · subst hd; exact Or.inr ⟨dx, hdx, hk⟩
      · exact Or.inl (Or.inr ⟨dy1, by omega, dx, hdx, hk⟩)

theorem scale_ff_cell_logged (ff : FF) (s y x n : Nat) (C : Nat → Prop) (st : ScaleState)
    (hinv : ff.pixels.length = ff.width * ff.height)
    (hlen : ff.width * ff.height < SIZE_MOD)
    (hM : ff.width * s * (ff.height * s) < SIZE_MOD)
    (hy : y < ff.height) (hx : x < ff.width)
    (hL : Logged (ff.width * s * (ff.height * s)) n C st) :
    ∃ st1, scale_ff_cell ff (ff.width * s) s y x st = some st1 ∧
      Logged (ff.width * s * (ff.height * s)) (n + s * s)
        (fun k => C k ∨ ∃ dy, dy < s ∧ ∃ dx, dx < s ∧ k = blockIndex ff.width s y x dy dx)
        st1 := by
  have hlt := src_index_lt ff.width ff.height y x hy hx
  have hmod : (y * ff.width + x) % SIZE_MOD = y * ff.width + x := Nat.mod_eq_of_lt (by omega)
  have hin : y * ff.width + x < ff.pixels.length := by omega
  have hpx : ff.pixels[y * ff.width + x]? = some (ff.pixels[y * ff.width + x]) :=
    List.getElem?_eq_getElem hin
  simp only [scale_ff_cell, hmod, hpx]
  exact scale_ff_block_logged ff s y x n _ C st hM hy hx hL

theorem scale_ff_loops_logged (ff : FF) (s : Nat) (st : ScaleState)
    (hinv : ff.pixels.length = ff.width * ff.height)
    (hlen : ff.width * ff.height < SIZE_MOD)
    (hM : ff.width * s * (ff.height * s) < SIZE_MOD)
    (hst : st.pixels.length = ff.width * s * (ff.height * s)) (hw : st.writes = []) :
    ∃ st1, scale_ff_loops ff (ff.width * s) s st = some st1 ∧
      Logged (ff.width * s * (ff.height * s)) (ff.height * (ff.width * (s * s)))
        (fun k => ∃ y, y < ff.height ∧ ∃ x, x < ff.width ∧ ∃ dy, dy < s ∧ ∃ dx, dx < s ∧
          k = blockIndex ff.width s y x dy dx) st1 := by
  unfold scale_ff_loops
  refine forLoop_inv
    (fun y s1 => forLoop ff.width (fun x s2 => scale_ff_cell ff (ff.width * s) s y x s2) s1)
    (fun i t => Logged (ff.width * s * (ff.height * s)) (i * (ff.width * (s * s)))
      (fun k => ∃ y, y < i ∧ ∃ x, x < ff.width ∧ ∃ dy, dy < s ∧ ∃ dx, dx < s ∧
          k = blockIndex ff.width s y x dy dx) t)
    ff.height st ?_ ?_
  · refine ⟨hst, by simp [hw], by simp [hw], ?_⟩
    rintro k ⟨y, hy, _⟩
    omega
  · intro y t hy hI
    have := forLoop_inv (fun x s2 => scale_ff_cell ff (ff.width * s) s y x s2)
      (fun j t => Logged (ff.width * s * (ff.height * s))
        (y * (ff.width * (s * s)) + j * (s * s))
        (fun k => (∃ y1, y1 < y ∧ ∃ x, x < ff.width ∧ ∃ dy, dy < s ∧ ∃ dx, dx < s ∧
            k = blockIndex ff.width s y1 x dy dx)
          ∨ ∃ x, x < j ∧ ∃ dy, dy < s ∧ ∃ dx, dx < s ∧ k = blockIndex ff.width s y x dy dx)
        t) ff.width t
      (hI.weaken (by simp) (fun k hk => by
        rcases hk with hk | ⟨x, hx, _⟩
        · exact hk
        · omega))
      (fun x t2 hx hI2 => by
        obtain ⟨t3, h3, hA3⟩ := scale_ff_cell_logged ff s y x _ _ t2 hinv hlen hM hy hx hI2
        refine ⟨t3, h3, hA3.weaken (by rw [Nat.add_mul, Nat.one_mul, Nat.add_assoc]) ?_⟩
        intro k hk
        rcases hk with hk | ⟨x1, hx1, hk⟩
        · exact Or.inl (Or.inl hk)
        · by_cases hd : x1 = x
          · subst hd; exact Or.inr hk
          · exact Or.inl (Or.inr ⟨x1, by omega, hk⟩))
    obtain ⟨t1, ht1, hA1⟩ := this
    refine ⟨t1, ht1, hA1.weaken (by rw [Nat.add_mul, Nat.one_mul]) ?_⟩
    intro k hk
    obtain ⟨y1, hy1, x, hx, hk⟩ := hk
    by_cases hd : y1 = y
    · subst hd; exact Or.inr ⟨x, hx, hk⟩
    · exact Or.inl ⟨y1, by omega, x, hx, hk⟩

theorem scale_ff_store_length (outw scale y x : Nat) (px : FF_Pixel) (dy dx : Nat)
    (st t : ScaleState) (h : scale_ff_store outw scale y x px dy dx st = some t) :
    t.pixels.length = st.pixels.length := by
  simp only [scale_ff_store] at h
  split at h
  · simp only [Option.some.injEq] at h
    rw [← h]
    simp
  · simp at h

theorem scale_ff_loops_length (ff : FF) (outw scale : Nat) (st t : ScaleState)
    (h : scale_ff_loops ff outw scale st = some t) : t.pixels.length = st.pixels.length := by
  refine forLoop_preserve (fun u : ScaleState => u.pixels.length = st.pixels.length) _ ?_
    ff.height st t rfl h
  intro y s1 t1 hs1 h1
  refine forLoop_preserve (fun u : ScaleState => u.pixels.length = st.pixels.length) _ ?_
    ff.width s1 t1 hs1 h1
  intro x s2 t2 hs2 h2
  simp only [scale_ff_cell] at h2
  split at h2
  · simp at h2
  · rename_i px _
    refine forLoop_preserve (fun u : ScaleState => u.pixels.length = st.pixels.length) _ ?_
      scale s2 t2 hs2 h2
    intro dy s3 t3 hs3 h3
    refine forLoop_preserve (fun u : ScaleState => u.pixels.length = st.pixels.length) _ ?_
      scale s3 t3 hs3 h3
    intro dx s4 t4 hs4 h4
    rw [scale_ff_store_length _ _ _ _ _ _ _ _ _ h4, hs4]

theorem calloc_length_granted (heap : Nat → Bool) (n : Nat) (h : heap n = true) :
    ((calloc heap n).getD []).length = n := by
  simp [calloc, h]

theorem calloc_length_zero (heap : Nat → Bool) : ((calloc heap 0).getD []).length = 0 := by
  cases h : heap 0 <;> simp [calloc, h]

theorem calloc_refused (heap : Nat → Bool) (n : Nat) (h : heap n = false) :
    (calloc heap n).getD [] = [] := by
  simp [calloc, h]

/-- With a null `out->pixels` and at least one pixel to copy, the first store of the scaler is
outside any object. -/
theorem scale_ff_loops_null (ff : FF) (outw scale : Nat) (st : ScaleState)
    (hst : st.pixels = []) (hh : 1 ≤ ff.height) (hw : 1 ≤ ff.width) (hs : 1 ≤ scale) :
    scale_ff_loops ff outw scale st = none := by
  obtain ⟨h1, hh1⟩ : ∃ k, ff.height = k + 1 := ⟨ff.height - 1, by omega⟩
  obtain ⟨w1, hw1⟩ : ∃ k, ff.width = k + 1 := ⟨ff.width - 1, by omega⟩
  obtain ⟨s1, hs1⟩ : ∃ k, scale = k + 1 := ⟨scale - 1, by omega⟩
  have hstore : ∀ px, scale_ff_store outw scale 0 0 px 0 0 st = none := by
    intro px
    simp [scale_ff_store, hst]
  have hblock : ∀ px, scale_ff_block outw scale 0 0 px st = none := by
    intro px
    unfold scale_ff_block forLoop
    rw [hs1]
    apply forLoopFrom_none
    apply forLoopFrom_none
    rw [← hs1]
    exact hstore px
  have hcell : scale_ff_cell ff outw scale 0 0 st = none := by
    unfold scale_ff_cell
    split
    · rfl
    · exact hblock _
  unfold scale_ff_loops forLoop
  rw [hh1]
  apply forLoopFrom_none
  rw [hw1]
  apply forLoopFrom_none
  exact hcell

/-- Whatever `scale_ff` returns has the wrapped dimensions and the length asked of `calloc`
(when the request was refused, no store was made and the length asked for was 0). -/
theorem scale_ff_shape (heap : Nat → Bool) (ff : FF) (scale : Nat) (out : FF)
    (h : scale_ff heap ff scale = some out) :
    out.width = ff.width * scale % SIZE_MOD ∧ out.height = ff.height * scale % SIZE_MOD ∧
      out.pixels.length = scale_ff_alloc ff scale := by
  simp only [scale_ff, scale_ff_run] at h
  cases hl : scale_ff_loops ff (ff.width * scale % SIZE_MOD) scale
      { pixels := (calloc heap
          (ff.width * scale % SIZE_MOD * (ff.height * scale % SIZE_MOD) % SIZE_MOD)).getD [],
        writes := [] } with
  | none =>
    rw [hl] at h
    simp at h
  | some st =>
    rw [hl] at h
    simp only [Option.map_some', Option.some.injEq] at h
    have hlen := scale_ff_loops_length _ _ _ _ _ hl
    rw [← h]
    refine ⟨rfl, rfl, ?_⟩
    simp only [scale_ff_alloc]
    simp only at hlen
    rw [hlen]
    cases hg : heap (ff.width * scale % SIZE_MOD * (ff.height * scale % SIZE_MOD) % SIZE_MOD) with
    | true => exact calloc_length_granted heap _ hg
    | false =>
      rw [calloc_refused heap _ hg] at hl ⊢
      by_cases hz : ff.width * scale % SIZE_MOD * (ff.height * scale % SIZE_MOD) % SIZE_MOD = 0
      · rw [hz]; rfl
      · exfalso
        have hne : 1 ≤ ff.height ∧ 1 ≤ ff.width ∧ 1 ≤ scale := by
          refine ⟨?_, ?_, ?_⟩
          · rcases Nat.eq_zero_or_pos ff.height with h0 | h0
            · rw [h0] at hz; simp at hz
            · exact h0
          · rcases Nat.eq_zero_or_pos ff.width with h0 | h0
            · rw [h0] at hz; simp at hz
            · exact h0
          · rcases Nat.eq_zero_or_pos scale with h0 | h0
            · rw [h0] at hz; simp at hz
            · exact h0
        rw [scale_ff_loops_null ff _ scale _ rfl hne.1 hne.2.1 hne.2.2] at hl
        simp at hl

/-- With at least one pixel to copy, a refused request makes the scaler store through a null
pointer. -/
theorem scale_ff_refused (heap : Nat → Bool) (ff : FF) (scale : Nat)
    (hh : 1 ≤ ff.height) (hw : 1 ≤ ff.width) (hs : 1 ≤ scale)
    (href : heap (scale_ff_alloc ff scale) = false) : scale_ff heap ff scale = none := by
  simp only [scale_ff_alloc] at href
  have hnull := scale_ff_loops_null ff (ff.width * scale % SIZE_MOD) scale
    { pixels := [], writes := [] } rfl hh hw hs
  simp only [scale_ff, scale_ff_run, calloc_refused heap _ href, hnull, Option.map_none']

theorem range_perm_of_cover (log : List Nat) (n : Nat) (hlen : log.length = n)
    (hcov : ∀ k, k < n → k ∈ log) : List.Perm (List.range n) log := by
  have hsub : List.range n ⊆ log := fun k hk => hcov k (List.mem_range.mp hk)
  exact (List.subperm_of_subset (List.nodup_range n) hsub).perm_of_length_le
    (by rw [hlen, List.length_range])

theorem block_index_cover (w h s k : Nat) (hk : k < w * s * (h * s)) :
    ∃ y, y < h ∧ ∃ x, x < w ∧ ∃ dy, dy < s ∧ ∃ dx, dx < s ∧ k = blockIndex w s y x dy dx := by
  have hs : 0 < s := by
    rcases Nat.eq_zero_or_pos s with h0 | h0
    · subst h0; simp at hk
    · exact h0
  have hW : 0 < w * s := by
    rcases Nat.eq_zero_or_pos (w * s) with h0 | h0
    · rw [h0] at hk; simp at hk
    · exact h0
  have hY : k / (w * s) < h * s := Nat.div_lt_of_lt_mul hk
  have hX : k % (w * s) < w * s := Nat.mod_lt _ hW
  have hY2 : k / (w * s) < s * h := by rw [Nat.mul_comm s h]; exact hY
  have hX2 : k % (w * s) < s * w := by rw [Nat.mul_comm s w]; exact hX
  refine ⟨k / (w * s) / s, Nat.div_lt_of_lt_mul hY2,
    k % (w * s) / s, Nat.div_lt_of_lt_mul hX2,
    k / (w * s) % s, Nat.mod_lt _ hs, k % (w * s) % s, Nat.mod_lt _ hs, ?_⟩
  have e1 : k / (w * s) / s * s + k / (w * s) % s = k / (w * s) := by
    rw [Nat.mul_comm]; exact Nat.div_add_mod _ s
  have e2 : k % (w * s) / s * s + k % (w * s) % s = k % (w * s) := by
    rw [Nat.mul_comm]; exact Nat.div_add_mod _ s
  simp only [blockIndex, e1, e2]
  rw [Nat.mul_comm]
  exact (Nat.div_add_mod k (w * s)).symm

/-- The stores of `scale_ff` when no product wraps: the log is a rearrangement of the
indices of the output buffer. -/
theorem scale_ff_run_writes (heap : Nat → Bool) (ff : FF) (s : Nat)
    (hinv : ff.pixels.length = ff.width * ff.height)
    (hlen : ff.width * ff.height < SIZE_MOD)
    (hw : ff.width * s < SIZE_MOD) (hh : ff.height * s < SIZE_MOD)
    (hM : ff.width * s * (ff.height * s) < SIZE_MOD)
    (hbuf : ((calloc heap (ff.width * s * (ff.height * s))).getD []).length
      = ff.width * s * (ff.height * s)) :
    ∃ out log, scale_ff_run heap ff s = some (out, log) ∧
      out.pixels.length = ff.width * s * (ff.height * s) ∧
      (∀ k ∈ log, k < ff.width * s * (ff.height * s)) ∧
      List.Perm (List.range (ff.width * s * (ff.height * s))) log := by
  obtain ⟨st1, h1, hL⟩ := scale_ff_loops_logged ff s
    { pixels := (calloc heap (ff.width * s * (ff.height * s))).getD [], writes := [] }
    hinv hlen hM hbuf rfl
  refine ⟨{ height := ff.height * s, width := ff.width * s, pixels := st1.pixels }, st1.writes,
    ?_, hL.1, hL.2.2.1, ?_⟩
  · simp only [scale_ff_run, Nat.mod_eq_of_lt hw, Nat.mod_eq_of_lt hh, Nat.mod_eq_of_lt hM, h1]
  · refine range_perm_of_cover _ _ ?_ ?_
    · rw [hL.2.1]; ring
    · intro k hk
      exact hL.2.2.2 k (block_index_cover ff.width ff.height s k hk)

theorem magic_strncmp (b : List Nat) (hmagic : b.take 8 = magic) :
    strncmp (b.take (1 * 8)) farbfeld 8 = 0 := by
  rw [show (1 * 8 : Nat) = 8 from rfl, hmagic]; decide

theorem magic_length (b : List Nat) (hmagic : b.take 8 = magic) : 8 ≤ b.length := by
  have : (b.take 8).length = 8 := by rw [hmagic]; rfl
  simp only [List.length_take] at this
  omega

/-- The decoder on a stream that ends inside the two dimension fields. -/
theorem read_ff_short_header (e : Endian) (heap : Nat → Bool) (out : FF) (b : List Nat)
    (hmagic : b.take 8 = magic) (hlen : b.length < 16) :
    (read_ff e heap out { bytes := b, failing := false, err := false }).1
      = FF_Status.FF_S_ExpectedMoar := by
  have h8 := magic_length b hmagic
  have hm := efread_ok 1 8 { bytes := b, failing := false, err := false } (by simp; omega)
  have hcmp := magic_strncmp b hmagic
  have hs := efread_short 4 2 { bytes := b.drop (1 * 8), failing := false, err := false }
    (by simp only [List.length_drop]; omega)
  simp only [Bool.or_self, Bool.false_eq_true, if_false] at hs
  simp only [read_ff, hm, hcmp, ne_eq, not_true_eq_false, if_false, hs, reduceCtorEq,
    not_false_eq_true, if_true]

/-- The decoder once the magic value and both dimension fields were read: the request to
`calloc` and the count of the pixel loop are the product of the two header values. -/
theorem read_ff_after_header (e : Endian) (heap : Nat → Bool) (out : FF) (b : List Nat)
    (fl er : Bool) (hb : IsBytes b) (hmagic : b.take 8 = magic) (h16 : 16 ≤ b.length) :
    read_ff e heap out { bytes := b, failing := fl, err := er }
      = if heap (be32At b 8 * be32At b 12) = true then
          read_ff_loop e (be32At b 8 * be32At b 12) 0
            { height := be32At b 12, width := be32At b 8,
              pixels := List.replicate (be32At b 8 * be32At b 12) zeroPixel }
            { bytes := b.drop 16, failing := fl, err := er }
        else
          (FF_Status.FF_S_AllocError,
            { height := be32At b 12, width := be32At b 8, pixels := [] },
            { bytes := b.drop 16, failing := fl, err := er }) := by
  have hm := efread_ok 1 8 { bytes := b, failing := fl, err := er } (by simp; omega)
  have hd := efread_ok 4 2 { bytes := b.drop (1 * 8), failing := fl, err := er }
    (by simp; omega)
  have hcmp := magic_strncmp b hmagic
  have hw := read_dim_eq e b hb 0 (by decide)
  have hh := read_dim_eq e b hb 1 (by decide)
  have hsz : be32At b 8 * be32At b 12 % SIZE_MOD = be32At b 8 * be32At b 12 :=
    Nat.mod_eq_of_lt (u32_mul_lt _ _ (be32At_lt b hb 8) (be32At_lt b hb 12))
  simp only [read_ff, hm, hd, hcmp, ne_eq, not_true_eq_false, if_false]
  simp only [show (1 * 8 : Nat) = 8 from rfl] at hw hh ⊢
  simp only [hw, hh, Nat.mul_zero, Nat.add_zero, Nat.mul_one, hsz, calloc, List.drop_drop]
  cases heap (be32At b 8 * be32At b 12) <;> simp

theorem be32_mod (v : Nat) : be32 (v % U32_MOD) = be32 v := by
  simp only [be32, U32_MOD, List.cons.injEq, and_true]
  omega

theorem be32At_be32 (pre rest : List Nat) (v : Nat) (n : Nat) (hn : pre.length = n) :
    be32At (pre ++ be32 v ++ rest) n = v % U32_MOD := by
  have h0 := getD_append_add pre (be32 v ++ rest) n 0 hn
  have h1 := getD_append_add pre (be32 v ++ rest) n 1 hn
  have h2 := getD_append_add pre (be32 v ++ rest) n 2 hn
  have h3 := getD_append_add pre (be32 v ++ rest) n 3 hn
  simp only [Nat.add_zero] at h0
  simp only [be32At, List.append_assoc, h0, h1, h2, h3]
  simp only [be32, List.cons_append, List.nil_append, List.getD_cons_zero, List.getD_cons_succ,
    U32_MOD]
  omega

/-- The encoder on every image that fits in memory (8 bytes per pixel). -/
theorem write_ff_total (e : Endian) (ff : FF) (fp : List Nat)
    (hlen : ff.pixels.length = ff.width * ff.height)
    (hmem : 8 * ff.pixels.length < SIZE_MOD) :
    write_ff e ff fp = some (fp ++ encodeImage ff) := by
  rcases Nat.eq_zero_or_pos ff.height with h0 | hpos
  · have hnil : ff.pixels = [] := by
      apply List.length_eq_zero.mp
      rw [hlen, h0, Nat.mul_zero]
    simp [write_ff, h0, forLoop, forLoopFrom, encodeImage, hnil, fputs, farbfeld, magic,
      store_u32_htonl, List.append_assoc]
    have hz := store_u32_htonl e 0
    simp only [Nat.zero_mod] at hz
    exact hz
  · have hle : ff.width ≤ ff.width * ff.height := Nat.le_mul_of_pos_right _ hpos
    exact write_ff_ok e ff fp hlen (by omega) (by omega)

theorem isBytes_take {b : List Nat} (hb : IsBytes b) (n : Nat) : IsBytes (b.take n) :=
  fun x hx => hb x (List.mem_of_mem_take hx)

theorem getD_take_lt (b : List Nat) (n j : Nat) (hj : j < n) :
    (b.take n).getD j 0 = b.getD j 0 := by
  simp [List.getD_eq_getElem?_getD, List.getElem?_take, hj]

theorem be32At_take (b : List Nat) (n o : Nat) (h : o + 4 ≤ n) :
    be32At (b.take n) o = be32At b o := by
  simp only [be32At, getD_take_lt b n _ (show o < n by omega),
    getD_take_lt b n _ (show o + 1 < n by omega), getD_take_lt b n _ (show o + 2 < n by omega),
    getD_take_lt b n _ (show o + 3 < n by omega)]

theorem pixelAt_take (b : List Nat) (n o : Nat) (h : o + 8 ≤ n) :
    pixelAt (b.take n) o = pixelAt b o := by
  simp only [pixelAt, be16At, getD_take_lt b n _ (show o < n by omega),
    getD_take_lt b n _ (show o + 1 < n by omega), getD_take_lt b n _ (show o + 2 < n by omega),
    getD_take_lt b n _ (show o + 2 + 1 < n by omega), getD_take_lt b n _ (show o + 4 < n by omega),
    getD_take_lt b n _ (show o + 4 + 1 < n by omega), getD_take_lt b n _ (show o + 6 < n by omega),
    getD_take_lt b n _ (show o + 6 + 1 < n by omega)]

/-- The driver at scale 1 on a stream that is exactly one image. -/
theorem main_scale_one_exact (e : Endian) (heap : Nat → Bool) (pre : FF) (b : List Nat)
    (fl er : Bool) (hb : IsBytes b) (hmagic : b.take 8 = magic)
    (hlen : b.length = 16 + 8 * (be32At b 8 * be32At b 12))
    (halloc : heap (be32At b 8 * be32At b 12) = true) :
    main e heap 2 false false 1 pre { bytes := b, failing := fl, err := er } = some (0, b) := by
  have hrd := read_ff_ok e heap pre b fl er hb hmagic (by omega) halloc
  have hwl := be32At_lt b hb 8
  have hhl := be32At_lt b hb 12
  have hprod := u32_mul_lt _ _ hwl hhl
  have hsc := scale_ff_one_eq heap
    { height := be32At b 12, width := be32At b 8,
      pixels := (List.range (be32At b 8 * be32At b 12)).map (fun j => pixelAt b (16 + 8 * j)) }
    (by simp) (by simp only [U32_MOD, SIZE_MOD] at *; omega)
    (by simp only [U32_MOD, SIZE_MOD] at *; omega) (by simpa using hprod)
    (by simpa using halloc)
  have hwr := write_ff_ok e
    { height := be32At b 12, width := be32At b 8,
      pixels := (List.range (be32At b 8 * be32At b 12)).map (fun j => pixelAt b (16 + 8 * j)) } []
    (by simp) (by simpa using hprod) (by simp only [U32_MOD, SIZE_MOD] at *; omega)
  rw [encode_decode b hb hmagic hlen] at hwr
  simp only [main, hrd, hsc, hwr]
  simp

/-- The decoder returns the same status and image on a stream and on its leading image. -/
theorem read_ff_take (e : Endian) (heap : Nat → Bool) (pre : FF) (b : List Nat) (fl er : Bool)
    (hb : IsBytes b) (hmagic : b.take 8 = magic)
    (hlen : 16 + 8 * (be32At b 8 * be32At b 12) ≤ b.length) :
    (read_ff e heap pre { bytes := b, failing := fl, err := er }).1
      = (read_ff e heap pre
          { bytes := b.take (16 + 8 * (be32At b 8 * be32At b 12)), failing := fl, err := er }).1 ∧
    (read_ff e heap pre { bytes := b, failing := fl, err := er }).2.1
      = (read_ff e heap pre
          { bytes := b.take (16 + 8 * (be32At b 8 * be32At b 12)), failing := fl, err := er }).2.1 := by
  have hb2 := isBytes_take hb (16 + 8 * (be32At b 8 * be32At b 12))
  have hm2 : (b.take (16 + 8 * (be32At b 8 * be32At b 12))).take 8 = magic := by
    rw [List.take_take, Nat.min_eq_left (by omega), hmagic]
  have hw2 := be32At_take b (16 + 8 * (be32At b 8 * be32At b 12)) 8 (by omega)
  have hh2 := be32At_take b (16 + 8 * (be32At b 8 * be32At b 12)) 12 (by omega)
  have hl2 : (b.take (16 + 8 * (be32At b 8 * be32At b 12))).length
      = 16 + 8 * (be32At b 8 * be32At b 12) := by
    rw [List.length_take]; omega
  cases halloc : heap (be32At b 8 * be32At b 12) with
  | false =>
    rw [read_ff_after_header e heap pre b fl er hb hmagic (by omega),
      read_ff_after_header e heap pre _ fl er hb2 hm2 (by omega), hw2, hh2, halloc]
    simp
  | true =>
    rw [read_ff_ok e heap pre b fl er hb hmagic hlen halloc,
      read_ff_ok e heap pre _ fl er hb2 hm2 (by rw [hw2, hh2, hl2]) (by rw [hw2, hh2]; exact halloc),
      hw2, hh2]
    refine ⟨rfl, ?_⟩
    simp only [FF.mk.injEq, true_and]
    apply List.map_congr_left
    intro j hj
    have hj2 := List.mem_range.mp hj
    exact (pixelAt_take b _ _ (by omega)).symm

/-- The scaler pixel by pixel: output pixel `(X, Y)` is source pixel `(X / s, Y / s)`. -/
theorem scale_ff_pointwise (heap : Nat → Bool) (ff : FF) (s : Nat)
    (hinv : ff.pixels.length = ff.width * ff.height) (hs : 1 ≤ s)
    (hw : ff.width * s < SIZE_MOD) (hh : ff.height * s < SIZE_MOD)
    (hM : ff.width * s * (ff.height * s) < SIZE_MOD)
    (halloc : heap (ff.width * s * (ff.height * s)) = true) :
    ∃ p, scale_ff heap ff s = some { height := ff.height * s, width := ff.width * s, pixels := p } ∧
      p.length = ff.width * s * (ff.height * s) ∧
      ∀ X Y, X < ff.width * s → Y < ff.height * s →
        p[Y * (ff.width * s) + X]? = ff.pixels[Y / s * ff.width + X / s]? := by
  have hle := mul_le_scaled ff.width ff.height s hs
  obtain ⟨p, hrun, hp, hblk⟩ := scale_ff_spec heap ff s hinv (by omega) hw hh hM halloc
  refine ⟨p, hrun, hp, ?_⟩
  intro X Y hX hY
  have hX2 : X < s * ff.width := by rw [Nat.mul_comm]; exact hX
  have hY2 : Y < s * ff.height := by rw [Nat.mul_comm]; exact hY
  have h2 := hblk (Y / s) (X / s) (Y % s) (X % s) (Nat.div_lt_of_lt_mul hY2)
    (Nat.div_lt_of_lt_mul hX2) (Nat.mod_lt _ hs) (Nat.mod_lt _ hs)
  have eX : X / s * s + X % s = X := by
    rw [Nat.mul_comm]; exact Nat.div_add_mod X s
  have eY : Y / s * s + Y % s = Y := by
    rw [Nat.mul_comm]; exact Nat.div_add_mod Y s
  simp only [blockIndex, eX, eY] at h2
  exact h2

/-- Two pixel buffers of `W * H` pixels that agree at every coordinate are equal. -/
theorem pixels_ext (p q : List FF_Pixel) (W H : Nat) (hp : p.length = W * H)
    (hq : q.length = W * H)
    (h : ∀ X Y, X < W → Y < H → p[Y * W + X]? = q[Y * W + X]?) : p = q := by
  apply List.ext_getElem?
  intro k
  by_cases hk : k < W * H
  · have hW : 0 < W := by
      rcases Nat.eq_zero_or_pos W with h0 | h0
      · rw [h0] at hk; simp at hk
      · exact h0
    have := h (k % W) (k / W) (Nat.mod_lt _ hW) (Nat.div_lt_of_lt_mul hk)
    have e1 : k / W * W + k % W = k := by
      rw [Nat.mul_comm]; exact Nat.div_add_mod k W
    rw [e1] at this
    exact this
  · rw [List.getElem?_eq_none (by omega), List.getElem?_eq_none (by omega)]

theorem scale_ff_run_alloc (heap : Nat → Bool) (ff : FF) (scale : Nat) :
    scale_ff_run heap ff scale
      = match scale_ff_loops ff (ff.width * scale % SIZE_MOD) scale
          { pixels := (calloc heap (scale_ff_alloc ff scale)).getD [], writes := [] } with
        | none => none
        | some st =>
          some ({ height := ff.height * scale % SIZE_MOD, width := ff.width * scale % SIZE_MOD,
                  pixels := st.pixels }, st.writes) :=
  rfl

/-! ## The claims, continued -/

/-- C11. Nine-byte scenario: on a 9-byte stream (ending without a read fault) whose first
7 bytes are `farbfel`, `read_ff` never returns `FF_S_Success`: it returns
`FF_S_ExpectedMoar` when the 8th byte is `d` (the magic value is complete and the
dimension fields are cut short) and `FF_S_BadMagic` otherwise, whatever the 9th byte is. -/
theorem read_ff_nine_bytes (e : Endian) (heap : Nat → Bool) (out : FF) (b : List Nat)
    (hlen : b.length = 9) (hpre : b.take 7 = magic.take 7) :
    ((read_ff e heap out { bytes := b, failing := false, err := false }).1
        = FF_Status.FF_S_BadMagic ∨
      (read_ff e heap out { bytes := b, failing := false, err := false }).1
        = FF_Status.FF_S_ExpectedMoar) ∧
    (read_ff e heap out { bytes := b, failing := false, err := false }).1
      ≠ FF_Status.FF_S_Success ∧
    (b.getD 7 0 = 100 →
      (read_ff e heap out { bytes := b, failing := false, err := false }).1
        = FF_Status.FF_S_ExpectedMoar) ∧
    (b.getD 7 0 ≠ 100 →
      (read_ff e heap out { bytes := b, failing := false, err := false }).1
        = FF_Status.FF_S_BadMagic) := by
  match b, hlen, hpre with
  | [a0, a1, a2, a3, a4, a5, a6, a7, a8], _, hpre =>
    simp only [List.take, magic, List.cons.injEq, and_true] at hpre
    obtain ⟨h0, h1, h2, h3, h4, h5, h6⟩ := hpre
    subst h0 h1 h2 h3 h4 h5 h6
    by_cases h7 : a7 = 100
    · subst h7
      have hs := read_ff_short_header e heap out [102, 97, 114, 98, 102, 101, 108, 100, a8]
        rfl (by simp)
      rw [hs]
      simp
    · have hbm := read_ff_bad_magic e heap out [102, 97, 114, 98, 102, 101, 108, a7, a8]
        false false (by simp) (by simp [magic, h7])
      rw [hbm]
      simp [h7]

theorem read_ff_nine_bytes_witness :
    (read_ff Endian.little heapAll out0
        { bytes := [102, 97, 114, 98, 102, 101, 108, 100, 0], failing := false, err := false }).1
      = FF_Status.FF_S_ExpectedMoar ∧
    (read_ff Endian.little heapAll out0
        { bytes := [102, 97, 114, 98, 102, 101, 108, 33, 100], failing := false, err := false }).1
      = FF_Status.FF_S_BadMagic :=
  ⟨(read_ff_nine_bytes Endian.little heapAll out0 [102, 97, 114, 98, 102, 101, 108, 100, 0]
      (by decide) (by decide)).2.2.1 (by decide),
   (read_ff_nine_bytes Endian.little heapAll out0 [102, 97, 114, 98, 102, 101, 108, 33, 100]
      (by decide) (by decide)).2.2.2 (by decide)⟩

/-- C12, the code at the failing input: `scale_ff` has no check of its products and no
failure result.  For the 1x1 image and the scale `2 ^ 32` it computes the width and the
height `2 ^ 32` and the pixel count `2 ^ 64` reduced modulo `2 ^ 64`, which is 0; it asks
`calloc` for 0 pixels, is granted them, and goes on: its first store is outside that
buffer.  For the empty image of width `2 ^ 31` and height 0 and the scale `2 ^ 33` it
returns normally with the width 0, while the exact product is `2 ^ 64`. -/
theorem scale_ff_overflow_unchecked :
    img11.pixels.length = img11.width * img11.height ∧
    img11.width < U32_MOD ∧ img11.height < U32_MOD ∧
    img11.width * 4294967296 * (img11.height * 4294967296) = 18446744073709551616 ∧
    scale_ff_alloc img11 4294967296 = 0 ∧
    calloc heapFits (scale_ff_alloc img11 4294967296) = some [] ∧
    scale_ff_store (img11.width * 4294967296 % SIZE_MOD) 4294967296 0 0 ⟨1, 2, 3, 4⟩ 0 0
      { pixels := [], writes := [] } = none ∧
    scale_ff heapFits img11 4294967296 = none ∧
    imgWide.pixels.length = imgWide.width * imgWide.height ∧
    imgWide.width < U32_MOD ∧ imgWide.height < U32_MOD ∧
    imgWide.width * 8589934592 = 18446744073709551616 ∧
    scale_ff heapFits imgWide 8589934592 = some { height := 0, width := 0, pixels := [] } := by
  decide

/-- C13, the claim fails: for the 1x1 image and the scale `2 ^ 31` no product wraps, but
even the most generous allocator refuses the `2 ^ 62` pixels of the output; `calloc`
returns a null pointer, nothing is allocated, and the first store of the scaler (index 0)
is not below the allocated count: it is outside any object. -/
theorem scale_ff_write_once_counterexample :
    img11.pixels.length = img11.width * img11.height ∧
    img11.width * 2147483648 < SIZE_MOD ∧ img11.height * 2147483648 < SIZE_MOD ∧
    img11.width * 2147483648 * (img11.height * 2147483648) < SIZE_MOD ∧
    (calloc heapFits (img11.width * 2147483648 * (img11.height * 2147483648))).getD [] = [] ∧
    scale_ff_store (img11.width * 2147483648) 2147483648 0 0 ⟨1, 2, 3, 4⟩ 0 0
      { pixels := [], writes := [] } = none ∧
    scale_ff_run heapFits img11 2147483648 = none := by
  decide

/-- C13, amended. Write-once, in-bounds population by the scaler when the allocation is
granted: for an image with `len(pixels) = width * height` and a scale for which
`width * scale`, `height * scale` and their product do not wrap, if `calloc` grants the
request for the output pixels, `scale_ff` runs without leaving an object: every index it
stores to is below the allocated count `out.width * out.height`, every source index
`y * width + x` it reads is below `len(pixels)`, and every output index below
`out.width * out.height` is stored to exactly once. -/
theorem scale_ff_write_once (heap : Nat → Bool) (img : FF) (scale : Nat)
    (hlen : img.pixels.length = img.width * img.height)
    (hsz : img.pixels.length < SIZE_MOD)
    (hw : img.width * scale < SIZE_MOD) (hh : img.height * scale < SIZE_MOD)
    (hM : img.width * scale * (img.height * scale) < SIZE_MOD)
    (halloc : heap (img.width * scale * (img.height * scale)) = true) :
    ∃ out log, scale_ff_run heap img scale = some (out, log) ∧
      out.width = img.width * scale ∧ out.height = img.height * scale ∧
      out.pixels.length = out.width * out.height ∧
      (∀ k ∈ log, k < out.width * out.height) ∧
      (∀ y x, y < img.height → x < img.width →
        (y * img.width + x) % SIZE_MOD < img.pixels.length) ∧
      (∀ k, k < out.width * out.height → log.count k = 1) := by
  obtain ⟨p, log1, hrun1, hp, _⟩ :=
    scale_ff_run_spec heap img scale hlen (by omega) hw hh hM halloc
  obtain ⟨out, log, hrun, _, hin, hperm⟩ :=
    scale_ff_run_writes heap img scale hlen (by omega) hw hh hM
      (calloc_length_granted heap _ halloc)
  rw [hrun1] at hrun
  simp only [Option.some.injEq, Prod.mk.injEq] at hrun
  obtain ⟨hout, hlog⟩ := hrun
  subst hout hlog
  refine ⟨_, _, hrun1, rfl, rfl, hp, hin, ?_, ?_⟩
  · intro y x hy hx
    have hlt := src_index_lt img.width img.height y x hy hx
    rw [Nat.mod_eq_of_lt (by omega)]
    omega
  · intro k hk
    have hnd : log1.Nodup := (hperm.nodup_iff).mp (List.nodup_range _)
    exact List.count_eq_one_of_mem hnd ((hperm.mem_iff).mp (List.mem_range.mpr hk))

theorem scale_ff_write_once_witness :
    ∃ out log, scale_ff_run heapFits img21 2 = some (out, log) ∧
      out.width = img21.width * 2 ∧ out.height = img21.height * 2 ∧
      out.pixels.length = out.width * out.height ∧
      (∀ k ∈ log, k < out.width * out.height) ∧
      (∀ y x, y < img21.height → x < img21.width →
        (y * img21.width + x) % SIZE_MOD < img21.pixels.length) ∧
      (∀ k, k < out.width * out.height → log.count k = 1) :=
  scale_ff_write_once heapFits img21 2 (by decide) (by decide) (by decide) (by decide)
    (by decide) (by decide)

/-- C14. The image invariant is established by both constructors: every image `read_ff`
returns with `FF_S_Success`, and every image `scale_ff` returns (from an image that
satisfies the invariant or from any other, and whatever `calloc` answered), has
`len(pixels) = width * height`, the product being taken in `size_t` (modulo `2 ^ 64`). -/
theorem image_invariant_established :
    (∀ (e : Endian) (heap : Nat → Bool) (out : FF) (fp : FILE),
      (read_ff e heap out fp).1 = FF_Status.FF_S_Success →
      (read_ff e heap out fp).2.1.pixels.length
        = (read_ff e heap out fp).2.1.width * (read_ff e heap out fp).2.1.height % SIZE_MOD) ∧
    (∀ (heap : Nat → Bool) (img : FF) (scale : Nat) (out : FF),
      scale_ff heap img scale = some out →
      out.pixels.length = out.width * out.height % SIZE_MOD) := by
  refine ⟨fun e heap out fp h => read_ff_success_shape e heap out fp h, ?_⟩
  intro heap img scale out h
  obtain ⟨h1, h2, h3⟩ := scale_ff_shape heap img scale out h
  rw [h3, h1, h2, scale_ff_alloc]

theorem image_invariant_established_witness :
    (read_ff Endian.little heapAll out0
        { bytes := stream21, failing := false, err := false }).2.1.pixels.length
      = (read_ff Endian.little heapAll out0
          { bytes := stream21, failing := false, err := false }).2.1.width
        * (read_ff Endian.little heapAll out0
          { bytes := stream21, failing := false, err := false }).2.1.height % SIZE_MOD ∧
    (∀ out, scale_ff heapFits img21 2 = some out →
      out.pixels.length = out.width * out.height % SIZE_MOD) ∧
    (scale_ff heapFits img21 2).isSome = true :=
  ⟨image_invariant_established.1 Endian.little heapAll out0
      { bytes := stream21, failing := false, err := false } (by decide),
   fun out h => image_invariant_established.2 heapFits img21 2 out h, by decide⟩

/-- C15, the code at the failing input: with the scale argument 0 and a valid 2x1 image
on standard input, `main` does not fail; it runs `scale_ff` and `write_ff` and exits
with status 0 after writing the 16-byte header of a 0x0 image. -/
theorem main_zero_scale_not_rejected :
    main Endian.little heapAll 2 false false 0 out0
        { bytes := stream21, failing := false, err := false }
      = some (0, [102, 97, 114, 98, 102, 101, 108, 100, 0, 0, 0, 0, 0, 0, 0, 0]) := by
  decide

/-- C16. Scale 0 in the scaler is harmless: for an image with `len(pixels) = width * height`
(the length being a value of `size_t`), `scale_ff` with scale 0 returns an image
of width 0, height 0 and no pixels, having made no store and having left no object,
whatever `calloc` answers to the request for 0 pixels. -/
theorem scale_ff_zero (heap : Nat → Bool) (img : FF)
    (hlen : img.pixels.length = img.width * img.height)
    (hsz : img.pixels.length < SIZE_MOD) :
    scale_ff_run heap img 0 = some ({ height := 0, width := 0, pixels := [] }, []) ∧
    scale_ff heap img 0 = some { height := 0, width := 0, pixels := [] } := by
  obtain ⟨out, log, hrun, hp, _, hperm⟩ :=
    scale_ff_run_writes heap img 0 hlen (by omega) (by simp [SIZE_MOD]) (by simp [SIZE_MOD])
      (by simp [SIZE_MOD]) (by simp only [Nat.mul_zero]; exact calloc_length_zero heap)
  obtain ⟨o2, hs2⟩ : ∃ o, scale_ff heap img 0 = some o := ⟨out, by simp [scale_ff, hrun]⟩
  obtain ⟨e1, e2, _⟩ := scale_ff_shape heap img 0 o2 hs2
  have ho : o2 = out := by
    simp only [scale_ff, hrun, Option.map_some', Option.some.injEq] at hs2
    exact hs2.symm
  subst ho
  have hlog : log = [] := by
    have := hperm.length_eq
    simp only [Nat.mul_zero, List.range_zero, List.length_nil] at this
    exact List.length_eq_zero.mp this.symm
  have hpx : o2.pixels = [] := by
    simp only [Nat.mul_zero] at hp
    exact List.length_eq_zero.mp hp
  have hout : o2 = { height := 0, width := 0, pixels := [] } := by
    cases o2 with
    | mk h w p =>
      simp only [Nat.mul_zero, Nat.zero_mod] at e1 e2
      simp only at hpx
      subst e1 e2 hpx
      rfl
  subst hlog
  rw [hout] at hrun
  exact ⟨hrun, by simp [scale_ff, hrun]⟩

theorem scale_ff_zero_witness :
    scale_ff_run heapNone img21 0 = some ({ height := 0, width := 0, pixels := [] }, []) :=
  (scale_ff_zero heapNone img21 (by decide) (by decide)).1

/-- C17. Decoder sizing never truncates: once the magic value and the two dimension fields
were read, both dimensions are below `2 ^ 32`, their product taken in `size_t` is the
exact product, and `read_ff` asks `calloc` for exactly that many pixels and enters the
pixel loop with exactly that count (returning `FF_S_AllocError` when the request is
refused). -/
theorem read_ff_sizing_exact (e : Endian) (heap : Nat → Bool) (out : FF) (b : List Nat)
    (fl er : Bool) (hb : IsBytes b) (hmagic : b.take 8 = magic) (h16 : 16 ≤ b.length) :
    be32At b 8 < U32_MOD ∧ be32At b 12 < U32_MOD ∧
    be32At b 8 * be32At b 12 % SIZE_MOD = be32At b 8 * be32At b 12 ∧
    read_ff e heap out { bytes := b, failing := fl, err := er }
      = (if heap (be32At b 8 * be32At b 12) = true then
          read_ff_loop e (be32At b 8 * be32At b 12) 0
            { height := be32At b 12, width := be32At b 8,
              pixels := List.replicate (be32At b 8 * be32At b 12) zeroPixel }
            { bytes := b.drop 16, failing := fl, err := er }
        else
          (FF_Status.FF_S_AllocError,
            { height := be32At b 12, width := be32At b 8, pixels := [] },
            { bytes := b.drop 16, failing := fl, err := er })) ∧
    (heap (be32At b 8 * be32At b 12) = true →
      (read_ff e heap out { bytes := b, failing := fl, err := er }).2.1.pixels.length
        = be32At b 8 * be32At b 12) := by
  have hwl := be32At_lt b hb 8
  have hhl := be32At_lt b hb 12
  have heq := read_ff_after_header e heap out b fl er hb hmagic h16
  refine ⟨hwl, hhl, Nat.mod_eq_of_lt (u32_mul_lt _ _ hwl hhl), heq, ?_⟩
  intro halloc
  rw [heq, if_pos halloc, (read_ff_loop_shape e _ _ _ _).2.2]
  simp

theorem read_ff_sizing_exact_witness :
    be32At streamBig 8 * be32At streamBig 12 % SIZE_MOD = 4294836225 ∧
    (read_ff Endian.little heapNone out0
        { bytes := streamBig, failing := false, err := false }).1
      = FF_Status.FF_S_AllocError := by
  have h := read_ff_sizing_exact Endian.little heapNone out0 streamBig false false
    (by decide) (by decide) (by decide)
  refine ⟨by rw [h.2.2.1]; decide, ?_⟩
  rw [h.2.2.2.1]
  decide

/-- C18. Header dimensions are the low 32 bits: for an image with
`len(pixels) = width * height` that fits in memory (8 bytes per pixel), `write_ff` emits a
stream whose bytes 8..11 and 12..15 are the big-endian encodings of `width mod 2 ^ 32`
and `height mod 2 ^ 32`, so the declared dimensions are the dimensions of the image if
and only if both are below `2 ^ 32`. -/
theorem write_ff_header_low_bits (e : Endian) (img : FF)
    (hlen : img.pixels.length = img.width * img.height)
    (hmem : 8 * img.pixels.length < SIZE_MOD) :
    ∃ out, write_ff e img [] = some out ∧
      out.take 8 = magic ∧
      (out.drop 8).take 4 = be32 (img.width % U32_MOD) ∧
      (out.drop 12).take 4 = be32 (img.height % U32_MOD) ∧
      be32At out 8 = img.width % U32_MOD ∧ be32At out 12 = img.height % U32_MOD ∧
      ((be32At out 8 = img.width ∧ be32At out 12 = img.height)
        ↔ (img.width < U32_MOD ∧ img.height < U32_MOD)) := by
  have hwr := write_ff_total e img [] hlen hmem
  rw [List.nil_append] at hwr
  have h8 : be32At (encodeImage img) 8 = img.width % U32_MOD := by
    have := be32At_be32 magic (be32 img.height ++ img.pixels.flatMap encodePixel) img.width 8 rfl
    simpa [encodeImage, List.append_assoc] using this
  have h12 : be32At (encodeImage img) 12 = img.height % U32_MOD := by
    have := be32At_be32 (magic ++ be32 img.width) (img.pixels.flatMap encodePixel) img.height 12
      rfl
    simpa [encodeImage, List.append_assoc] using this
  refine ⟨encodeImage img, hwr, take_magic_encodeImage img, ?_, ?_, h8, h12, ?_⟩
  · rw [be32_mod]; simp [encodeImage, magic, be32]
  · rw [be32_mod]; simp [encodeImage, magic, be32]
  · rw [h8, h12]
    have hpos : 0 < U32_MOD := by decide
    constructor
    · rintro ⟨h1, h2⟩
      exact ⟨h1 ▸ Nat.mod_lt _ hpos, h2 ▸ Nat.mod_lt _ hpos⟩
    · rintro ⟨h1, h2⟩
      exact ⟨Nat.mod_eq_of_lt h1, Nat.mod_eq_of_lt h2⟩

theorem write_ff_header_low_bits_witness :
    read_ff Endian.little heapAll out0 { bytes := streamWide, failing := false, err := false }
      = (FF_Status.FF_S_Success, imgWide, { bytes := [], failing := false, err := false }) ∧
    scale_ff heapFits imgWide 2 = some { height := 0, width := 4294967296, pixels := [] } ∧
    ∃ out, write_ff Endian.little { height := 0, width := 4294967296, pixels := [] } []
        = some out ∧
      be32At out 8 = 0 ∧ be32At out 12 = 0 := by
  refine ⟨by decide, by decide, ?_⟩
  obtain ⟨out, h1, _, _, _, h8, h12, _⟩ := write_ff_header_low_bits Endian.little
    { height := 0, width := 4294967296, pixels := [] } (by decide) (by decide)
  exact ⟨out, h1, by rw [h8]; decide, by rw [h12]; decide⟩

/-- C19, the claim fails: when `calloc` returns a null pointer the pipeline at scale 1 on
the stream `stream21x` (a complete 2x1 image followed by three bytes) exits with status 1
and emits nothing, not the 32-byte prefix `stream21`. -/
theorem trailing_bytes_counterexample :
    IsBytes stream21x ∧ stream21x.take 8 = magic ∧
    16 + 8 * (be32At stream21x 8 * be32At stream21x 12) < stream21x.length ∧
    stream21x.take (16 + 8 * (be32At stream21x 8 * be32At stream21x 12)) = stream21 ∧
    main Endian.little heapNone 2 false false 1 out0
        { bytes := stream21x, failing := false, err := false } = some (1, []) ∧
    main Endian.little heapNone 2 false false 1 out0
        { bytes := stream21x, failing := false, err := false } ≠ some (0, stream21) := by
  decide

/-- C19, amended. The decoder ignores trailing bytes: on a stream that starts with a valid
image of declared size `w x h` and has any number of bytes after offset `16 + 8 * w * h`,
`read_ff` returns the same status and the same image as on the first `16 + 8 * w * h`
bytes, and, when the allocation is granted, the pipeline at scale 1 emits exactly that
prefix. -/
theorem read_ff_ignores_trailing_bytes (e : Endian) (heap : Nat → Bool) (pre : FF)
    (b : List Nat) (fl er : Bool) (hb : IsBytes b) (hmagic : b.take 8 = magic)
    (hlen : 16 + 8 * (be32At b 8 * be32At b 12) ≤ b.length) :
    (read_ff e heap pre { bytes := b, failing := fl, err := er }).1
      = (read_ff e heap pre
          { bytes := b.take (16 + 8 * (be32At b 8 * be32At b 12)), failing := fl, err := er }).1 ∧
    (read_ff e heap pre { bytes := b, failing := fl, err := er }).2.1
      = (read_ff e heap pre
          { bytes := b.take (16 + 8 * (be32At b 8 * be32At b 12)), failing := fl, err := er }).2.1 ∧
    (heap (be32At b 8 * be32At b 12) = true →
      (read_ff e heap pre { bytes := b, failing := fl, err := er }).1 = FF_Status.FF_S_Success ∧
      main e heap 2 false false 1 pre { bytes := b, failing := fl, err := er }
        = some (0, b.take (16 + 8 * (be32At b 8 * be32At b 12)))) := by
  obtain ⟨h1, h2⟩ := read_ff_take e heap pre b fl er hb hmagic hlen
  refine ⟨h1, h2, ?_⟩
  intro halloc
  have hb2 := isBytes_take hb (16 + 8 * (be32At b 8 * be32At b 12))
  have hm2 : (b.take (16 + 8 * (be32At b 8 * be32At b 12))).take 8 = magic := by
    rw [List.take_take, Nat.min_eq_left (by omega), hmagic]
  have hw2 := be32At_take b (16 + 8 * (be32At b 8 * be32At b 12)) 8 (by omega)
  have hh2 := be32At_take b (16 + 8 * (be32At b 8 * be32At b 12)) 12 (by omega)
  have hl2 : (b.take (16 + 8 * (be32At b 8 * be32At b 12))).length
      = 16 + 8 * (be32At b 8 * be32At b 12) := by
    rw [List.length_take]; omega
  have hmain := main_scale_one_exact e heap pre _ fl er hb2 hm2 (by rw [hw2, hh2, hl2])
    (by rw [hw2, hh2]; exact halloc)
  have hst : (read_ff e heap pre { bytes := b, failing := fl, err := er }).1
      = FF_Status.FF_S_Success := by
    rw [read_ff_ok e heap pre b fl er hb hmagic hlen halloc]
  refine ⟨hst, ?_⟩
  rw [← hmain]
  simp only [main, h1, h2]

theorem read_ff_ignores_trailing_bytes_witness :
    main Endian.little heapAll 2 false false 1 out0
        { bytes := stream21x, failing := false, err := false } = some (0, stream21) :=
  ((read_ff_ignores_trailing_bytes Endian.little heapAll out0 stream21x false false
    (by decide) (by decide) (by decide)).2.2 (by decide)).2

/-- C20, the claim fails: for the 1x1 image and the scales `2 ^ 16` and `2 ^ 15` no product
wraps, but the final image would have `2 ^ 62` pixels of 8 bytes; even the most generous
allocator refuses them, so neither `scale_ff` by `2 ^ 16 * 2 ^ 15` nor `scale_ff` by
`2 ^ 16` followed by `scale_ff` by `2 ^ 15` returns an image: in both the last `calloc`
returns a null pointer and the next store is outside any object. -/
theorem scale_ff_compose_counterexample :
    img11.pixels.length = img11.width * img11.height ∧ 1 ≤ 65536 ∧ 1 ≤ 32768 ∧
    img11.width * 65536 * 32768 < SIZE_MOD ∧ img11.height * 65536 * 32768 < SIZE_MOD ∧
    img11.width * 65536 * 32768 * (img11.height * 65536 * 32768) < SIZE_MOD ∧
    scale_ff heapFits img11 (65536 * 32768) = none ∧
    (scale_ff heapFits img11 65536).bind (fun mid => scale_ff heapFits mid 32768) = none := by
  refine ⟨by decide, by decide, by decide, by decide, by decide, by decide, by decide, ?_⟩
  obtain ⟨p, h1, _, _⟩ := scale_ff_spec heapFits img11 65536 (by decide) (by decide) (by decide)
    (by decide) (by decide) (by decide)
  rw [h1, Option.some_bind]
  exact scale_ff_refused heapFits _ 32768 (by simp [img11]) (by simp [img11]) (by decide)
    (by simp [heapFits, scale_ff_alloc, SIZE_MOD, img11])

/-- C20, amended. Scaling composes multiplicatively when the allocations are granted: for an
image with `len(pixels) = width * height` and scales `a, b` of at least 1 for which
`width * a * b`, `height * a * b` and their product do not wrap, if `calloc` grants the
requests for the intermediate and for the final pixels, `scale_ff` by `a` followed by
`scale_ff` by `b` returns the same width, height and pixel sequence as `scale_ff` by
`a * b`. -/
theorem scale_ff_compose (heap : Nat → Bool) (img : FF) (a b : Nat)
    (hlen : img.pixels.length = img.width * img.height)
    (ha : 1 ≤ a) (hb : 1 ≤ b)
    (hw : img.width * a * b < SIZE_MOD) (hh : img.height * a * b < SIZE_MOD)
    (hM : img.width * a * b * (img.height * a * b) < SIZE_MOD)
    (hmid : heap (img.width * a * (img.height * a)) = true)
    (hfin : heap (img.width * a * b * (img.height * a * b)) = true) :
    ∃ out, scale_ff heap img (a * b) = some out ∧
      (scale_ff heap img a).bind (fun mid => scale_ff heap mid b) = some out := by
  have hwa : img.width * a ≤ img.width * a * b := Nat.le_mul_of_pos_right _ hb
  have hha : img.height * a ≤ img.height * a * b := Nat.le_mul_of_pos_right _ hb
  have hMa : img.width * a * (img.height * a) ≤ img.width * a * b * (img.height * a * b) :=
    Nat.mul_le_mul hwa hha
  obtain ⟨p1, h1, hp1, hpt1⟩ := scale_ff_pointwise heap img a hlen ha (by omega) (by omega)
    (by omega) hmid
  obtain ⟨p2, h2, hp2, hpt2⟩ := scale_ff_pointwise heap
    { height := img.height * a, width := img.width * a, pixels := p1 } b hp1 hb hw hh hM hfin
  have eW : img.width * (a * b) = img.width * a * b := (Nat.mul_assoc _ _ _).symm
  have eH : img.height * (a * b) = img.height * a * b := (Nat.mul_assoc _ _ _).symm
  obtain ⟨p3, h3, hp3, hpt3⟩ := scale_ff_pointwise heap img (a * b) hlen (Nat.mul_pos ha hb)
    (by rw [eW]; exact hw) (by rw [eH]; exact hh) (by rw [eW, eH]; exact hM)
    (by rw [eW, eH]; exact hfin)
  rw [eW, eH] at h3 hp3
  simp only [eW, eH] at hpt3
  simp only at h2 hp2 hpt2
  have hpix : p2 = p3 := by
    apply pixels_ext p2 p3 (img.width * a * b) (img.height * a * b) hp2 hp3
    intro X Y hX hY
    have hX2 : X < b * (img.width * a) := by rw [Nat.mul_comm]; exact hX
    have hY2 : Y < b * (img.height * a) := by rw [Nat.mul_comm]; exact hY
    rw [hpt2 X Y hX hY, hpt1 (X / b) (Y / b) (Nat.div_lt_of_lt_mul hX2)
      (Nat.div_lt_of_lt_mul hY2), hpt3 X Y hX hY, Nat.div_div_eq_div_mul,
      Nat.div_div_eq_div_mul, Nat.mul_comm b a]
  refine ⟨_, h3, ?_⟩
  rw [h1, Option.some_bind, h2, hpix]

theorem scale_ff_compose_witness :
    ∃ out, scale_ff heapFits img21 (2 * 3) = some out ∧
      (scale_ff heapFits img21 2).bind (fun mid => scale_ff heapFits mid 3) = some out :=
  scale_ff_compose heapFits img21 2 3 (by decide) (by decide) (by decide) (by decide)
    (by decide) (by decide) (by decide) (by decide)

end FFScale
